import Mathlib

/-!
# A shallow embedding of the `refstr` path engine and decoder

This file models the Go package `refstr` (files `path.go`, `nodes.go`,
`decoder.go`, `funcs.go` of the repository) and proves properties of the
model.

Modelling conventions:

* Go `reflect.Value`s are modelled by the inductive tree type `Val`;
  Go `reflect.Type`s by `Ty`.  Machine integers are modelled by `Int`
  (no arithmetic overflow is relevant to any modelled operation).
* A Go `panic` (out-of-range index, `reflect` kind mismatch, method call
  through a nil pointer, ...) is modelled by the error value
  `Err.panicked`; the package's error values `ErrSetNotSupported`,
  `ErrGetNotSupported` and `ErrGetInvalid` are modelled by the
  corresponding constructors of `Err`.
* An invalid `reflect.Value` (the zero `Value`) is modelled by `none`
  where it can occur as a result (`Option Val`).
* Go's nil slices behave exactly like empty slices for every operation
  the package performs on them (`Len`, `Index`, `Append`), so the model
  identifies nil and empty slices.  Nil maps and nil pointers are
  observable (reads yield invalid values / panics) and are modelled by
  the constructors `Val.nilMap` and `Val.nilPtr`.
* Addressability of a `reflect.Value` is tracked explicitly: the root
  slot of an operation carries a `Bool` (`rootCanSet`), dereferencing a
  pointer or indexing a slice always yields an addressable value, and
  struct fields / array elements inherit the addressability of their
  container — exactly `reflect`'s flagAddr rules for the shapes the
  package traverses.
-/

set_option maxHeartbeats 1000000

namespace Refstr

/-- A key of a path node: the package uses `any` keys; the keys it ever
constructs or compares are strings (struct fields, map keys) and machine
integers (slice/array indices). -/
inductive Key where
  | s (v : String)
  | i (v : Int)
deriving DecidableEq, Repr

/-- Model of `ToString` (`fmt.Sprintf("%+v", a)`) restricted to the key
universe: a string formats as itself, an integer in decimal (with a
leading `-` when negative) — which is exactly `Int.repr`. -/
def ToString : Key → String
  | .s v => v
  | .i v => v.repr

/-- Model of the `reflect.Type`s the package dispatches on: signed
integers and strings as representative scalar kinds, pointers, structs
(a list of named fields; anonymous/embedded fields and methods are not
part of the modelled universe), maps, slices and fixed-size arrays. -/
inductive Ty where
  | int
  | str
  | ptr (elem : Ty)
  | strct (fields : List (String × Ty))
  | map (key value : Ty)
  | slice (elem : Ty)
  | array (n : Nat) (elem : Ty)
deriving Repr

/-- Model of the runtime values (`reflect.Value`) the package traverses. -/
inductive Val where
  | int (n : Int)
  | str (s : String)
  | strct (fields : List Val)
  | map (entries : List (Key × Val))
  | nilMap
  | slice (elemTy : Ty) (elems : List Val)
  | array (elems : List Val)
  | ptr (w : Val)
  | nilPtr
deriving Repr

/-- One addressable step inside a value: a struct field, a slice/array
element, or a pointer dereference.  These are the shapes along which
`reflect` hands out views into existing storage. -/
inductive Step where
  | field (i : Nat)
  | index (i : Nat)
  | deref
deriving DecidableEq, Repr

/-- Read the sub-value at a step path. -/
def readAt : List Step → Val → Option Val
  | [], v => some v
  | st :: rest, v =>
    match st, v with
    | .field i, .strct fs => (fs[i]?).bind (readAt rest)
    | .index i, .slice _ es => (es[i]?).bind (readAt rest)
    | .index i, .array es => (es[i]?).bind (readAt rest)
    | .deref, .ptr w => readAt rest w
    | _, _ => none

/-- Replace the sub-value at a step path (models an in-place write into
existing storage).  On a path that does not resolve, the value is
returned unchanged; all uses write along paths previously read. -/
def writeAt : List Step → Val → Val → Val
  | [], _, x => x
  | st :: rest, v, x =>
    match st, v with
    | .field i, .strct fs =>
      match fs[i]? with
      | some f => .strct (fs.set i (writeAt rest f x))
      | none => .strct fs
    | .index i, .slice t es =>
      match es[i]? with
      | some e => .slice t (es.set i (writeAt rest e x))
      | none => .slice t es
    | .index i, .array es =>
      match es[i]? with
      | some e => .array (es.set i (writeAt rest e x))
      | none => .array es
    | .deref, .ptr w => .ptr (writeAt rest w x)
    | _, _ => v

/-- Model of `Concrete`: follow pointers down to the non-pointer value,
returning the dereferencing steps taken.  `Concrete` of a nil pointer is
the invalid `reflect.Value` (`rv.Elem()` of a nil pointer): every use
the package then makes of it (`Field`, `Index`, `MapIndex`,
`SetMapIndex`) panics, so the model returns `none` here. -/
def derefChain : Val → Option (List Step × Val)
  | .ptr w => (derefChain w).map (fun p => (.deref :: p.1, p.2))
  | .nilPtr => none
  | v => some ([], v)

/-- Model of `ConcreteType`: strip pointer types. -/
def ConcreteType : Ty → Ty
  | .ptr t => ConcreteType t
  | t => t

mutual
/-- The Go zero value of a type (`reflect.New(t).Elem()`):
zero scalars, nil pointers/maps, empty (nil) slices, zeroed structs and
arrays. -/
def zeroVal : Ty → Val
  | .int => .int 0
  | .str => .str ""
  | .ptr _ => .nilPtr
  | .strct fields => .strct (zeroValFields fields)
  | .map _ _ => .nilMap
  | .slice t => .slice t []
  | .array n t => .array (List.replicate n (zeroVal t))

/-- Zero values of a struct's field list. -/
def zeroValFields : List (String × Ty) → List Val
  | [] => []
  | f :: rest => zeroVal f.2 :: zeroValFields rest
end

/-- Model of `InitType(rt)`: a fresh zero value of `rt` with its
top-level nil containers initialized by `InitValue` — maps become empty
non-nil maps, slices empty slices, and pointers point at a recursively
initialized pointee.  For the modelled type universe `InitValue` on a
freshly allocated (hence settable) value never fails, so `InitType`
never returns the invalid value. -/
def initTypeVal : Ty → Val
  | .map _ _ => .map []
  | .slice t => .slice t []
  | .ptr t => .ptr (initTypeVal t)
  | t => zeroVal t

/-- The package's error values, plus `panicked` for Go panics. -/
inductive Err where
  | errSetNotSupported
  | errGetNotSupported
  | errGetInvalid
  | panicked
deriving DecidableEq, Repr

/-- Model of `InitValue(rv, rt)` at the call sites of `Path.Set`, where
`rv` is always settable (it was either freshly allocated by the
`reflect.New` wrap or is an addressable alias): a nil map becomes an
empty map, a nil pointer is pointed at a recursively initialized
pointee, everything already non-nil (and every non-nillable kind) is
kept.  `rv.IsNil()` on a value whose kind does not match a nillable
`rt.Kind()` panics. -/
def initValue (rv : Val) (rt : Ty) : Except Err Val :=
  match rt with
  | .map _ _ =>
    match rv with
    | .nilMap => .ok (.map [])
    | .map es => .ok (.map es)
    | .ptr w => .ok (.ptr w)
    | .slice t es => .ok (.slice t es)
    | .nilPtr => .error .panicked
    | _ => .error .panicked
  | .slice _ =>
    match rv with
    | .slice t es => .ok (.slice t es)
    | .ptr w => .ok (.ptr w)
    | .map es => .ok (.map es)
    | .nilPtr => .error .panicked
    | .nilMap => .error .panicked
    | _ => .error .panicked
  | .ptr t =>
    match rv with
    | .ptr w => .ok (.ptr w)
    | .nilPtr => .ok (.ptr (initTypeVal t))
    | .map es => .ok (.map es)
    | .slice t2 es => .ok (.slice t2 es)
    | .nilMap => .error .panicked
    | _ => .error .panicked
  | _ => .ok rv

/-- `SetMapIndex` semantics on the association-list model of a Go map:
replace the entry for the key if present, otherwise append it. -/
def insertEntry : List (Key × Val) → Key → Val → List (Key × Val)
  | [], k, x => [(k, x)]
  | e :: rest, k, x => if e.1 = k then (e.1, x) :: rest else e :: insertEntry rest k x

/-- `MapIndex` semantics on the association-list model of a Go map. -/
def findEntry : List (Key × Val) → Key → Option Val
  | [], _ => none
  | e :: rest, k => if e.1 = k then some e.2 else findEntry rest k

/-- Lookup in the model of the `ByKey` Go map of a `Nodes` value (its
keys are unique by construction of `Nodes.Add`, so an association list
lookup is an exact model). -/
def lookupKS {α : Type} : List (String × α) → String → Option α
  | [], _ => none
  | e :: rest, s => if e.1 = s then some e.2 else lookupKS rest s

/-- The read functions (`NodeGet` values) the package installs on nodes:
`indexGet`, `mapGet`, and `getFieldGet i` from `path.go`.  (The
method-call read functions `getMethodGet i` and the getter-composed
functions built for function kinds call arbitrary Go code and are
outside the modelled universe.) -/
inductive GetF where
  | indexGet
  | mapGet
  | fieldGet (i : Nat)
deriving DecidableEq, Repr

/-- The write functions (`NodeSet` values) the package installs on
nodes: `indexSet`, `mapSet`, and `getFieldSet i` from `path.go`. -/
inductive SetF where
  | indexSet
  | mapSet
  | fieldSet (i : Nat)
deriving DecidableEq, Repr

/-- An alias for `Key`, usable inside the declaration of `Node`, where
the field name `Key` shadows the type name. -/
abbrev KeyT := Key

/-- Model of `Node`.  The Go field `Type` is called `ty` here (`Type` is
reserved in Lean); `Get`/`Set` hold the node's optional read/write
functions, drawn from the closed universe `GetF`/`SetF`. -/
structure Node where
  KeyString : String := ""
  Key : Option KeyT := none
  KeyType : Ty := .str
  ty : Ty
  CopyOnly : Bool := false
  Get : Option GetF := none
  Set : Option SetF := none
deriving Repr

/-- `Node.IsDynamic`: no key and no key string. -/
def Node.IsDynamic (n : Node) : Bool :=
  n.Key.isNone && n.KeyString == ""

/-- `Node.ForKey`: bind a dynamic node to a key (a copy with `Key` and
`KeyString` filled in); concrete nodes are returned unchanged. -/
def Node.ForKey (n : Node) (key : KeyT) : Node :=
  if !n.IsDynamic then n
  else { n with Key := some key, KeyString := ToString key }

/-- Model of `Nodes`: the order-preserving sequence and the by-key-string
map. -/
structure Nodes where
  InOrder : List Node := []
  ByKey : List (String × Node) := []
deriving Repr

/-- `Nodes.Add`: appends the node unless its key string is already
present. -/
def Nodes.Add (ns : Nodes) (n : Node) : Nodes :=
  if (lookupKS ns.ByKey n.KeyString).isSome then ns
  else { InOrder := ns.InOrder ++ [n], ByKey := ns.ByKey ++ [(n.KeyString, n)] }

/-- `NewNodes`. -/
def NewNodes (initial : List Node) : Nodes :=
  initial.foldl Nodes.Add {}

/-- `Nodes.ForKey`: a collection consisting of exactly one dynamic node
resolves any key by specializing that node; otherwise the key's string
form is looked up in `ByKey`. -/
def Nodes.ForKey (ns : Nodes) (key : Key) : Option Node :=
  match ns.InOrder with
  | [d] =>
    if d.IsDynamic then some (d.ForKey key)
    else lookupKS ns.ByKey (ToString key)
  | _ => lookupKS ns.ByKey (ToString key)

/-- `Nodes.KeyStrings`: the key strings of the non-dynamic nodes. -/
def Nodes.KeyStrings (ns : Nodes) : List String :=
  (ns.InOrder.filter (fun n => !n.IsDynamic)).map Node.KeyString

/-- Model of `GetTypeNodes` restricted to the modelled type universe:
the structural-kind switch of `nodes.go`.  The process-wide cache
(`typeNodes`) is pure memoization of this computation and is omitted;
the `Func` kind, embedded struct fields and method scanning
(`addMethodNodes`) concern types outside the modelled universe (which
has no function types or methods), so for modelled types
`addMethodNodes` adds nothing. -/
def GetTypeNodes (rt : Ty) : Nodes :=
  match ConcreteType rt with
  | .map k v =>
    NewNodes [{ KeyType := k, ty := v, CopyOnly := true,
                Get := some .mapGet, Set := some .mapSet }]
  | .slice t =>
    NewNodes [{ KeyType := .int, ty := t,
                Get := some .indexGet, Set := some .indexSet }]
  | .array n t =>
    NewNodes ((List.range n).map fun i =>
      { Key := some (.i (Int.ofNat i)), KeyType := .int,
        KeyString := ToString (.i (Int.ofNat i)), ty := t,
        Get := some .indexGet, Set := some .indexSet })
  | .strct fields =>
    NewNodes (fields.enum.map fun fi =>
      { Key := some (.s fi.2.1), KeyType := .str, KeyString := fi.2.1,
        ty := fi.2.2, Get := some (.fieldGet fi.1),
        Set := some (.fieldSet fi.1) })
  | _ => NewNodes []

/-- Value-level semantics of a node read function (`node.Get(node, rv)`)
as used by `Path.Get`: the result is the plain value read (`ok (some v)`),
the invalid `reflect.Value` (`ok none`: a missing map key, or any key on
a nil map), or a panic (kind mismatch, out-of-range or non-integer
index, missing key on the node, field index out of range, nil pointer
dereference). -/
def applyGet (g : GetF) (n : Node) (rv : Val) : Except Err (Option Val) :=
  match derefChain rv with
  | none => .error .panicked
  | some dc =>
    match g, dc.2 with
    | .fieldGet i, .strct fs =>
      match fs[i]? with
      | some f => .ok (some f)
      | none => .error .panicked
    | .indexGet, .slice _ es =>
      match n.Key with
      | some (.i ix) =>
        if ix < 0 then .error .panicked
        else
          match es[ix.toNat]? with
          | some e => .ok (some e)
          | none => .error .panicked
      | _ => .error .panicked
    | .indexGet, .array es =>
      match n.Key with
      | some (.i ix) =>
        if ix < 0 then .error .panicked
        else
          match es[ix.toNat]? with
          | some e => .ok (some e)
          | none => .error .panicked
      | _ => .error .panicked
    | .mapGet, .map es =>
      match n.Key with
      | some k => .ok (findEntry es k)
      | none => .error .panicked
    | .mapGet, .nilMap =>
      match n.Key with
      | some _ => .ok none
      | none => .error .panicked
    | _, _ => .error .panicked

/-- Model of `Path.Get` over a node list: replay the nodes' read
functions, failing with `ErrGetNotSupported` on a node with no read
function and with `ErrGetInvalid` on an invalid intermediate result,
both short-circuiting; the empty path returns the root. -/
def GetNodes : List Node → Val → Except Err Val
  | [], root => .ok root
  | n :: rest, root =>
    match n.Get with
    | none => .error .errGetNotSupported
    | some g =>
      match applyGet g n root with
      | .error e => .error e
      | .ok none => .error .errGetInvalid
      | .ok (some v) => GetNodes rest v

/-- The result of a node read as seen by the forward pass of `Path.Set`,
which additionally needs to know whether the value read is an
addressable view into the container (struct field, slice/array element:
mutating it mutates the container) or a detached copy/invalid value (map
reads).  `aliased steps settable child`: `child` sits at `steps` inside
the container and is settable iff `settable`; `copy c` is `MapIndex`'s
result (`none` = the invalid value: missing key or nil map). -/
inductive Child where
  | aliased (steps : List Step) (settable : Bool) (child : Val)
  | copy (c : Option Val)
deriving Repr

/-- The node read functions again, now with the aliasing/addressability
information `Path.Set`'s forward pass depends on.  `settable` is the
addressability of the container slot `rv`; a pointer dereference or a
slice indexing always yields an addressable value, struct fields and
array elements inherit. -/
def applyGetChild (g : GetF) (n : Node) (settable : Bool) (rv : Val) :
    Except Err Child :=
  match derefChain rv with
  | none => .error .panicked
  | some dc =>
    match g, dc.2 with
    | .fieldGet i, .strct fs =>
      match fs[i]? with
      | some f => .ok (.aliased (dc.1 ++ [.field i]) (settable || !dc.1.isEmpty) f)
      | none => .error .panicked
    | .indexGet, .slice _ es =>
      match n.Key with
      | some (.i ix) =>
        if ix < 0 then .error .panicked
        else
          match es[ix.toNat]? with
          | some e => .ok (.aliased (dc.1 ++ [.index ix.toNat]) true e)
          | none => .error .panicked
      | _ => .error .panicked
    | .indexGet, .array es =>
      match n.Key with
      | some (.i ix) =>
        if ix < 0 then .error .panicked
        else
          match es[ix.toNat]? with
          | some e => .ok (.aliased (dc.1 ++ [.index ix.toNat]) (settable || !dc.1.isEmpty) e)
          | none => .error .panicked
      | _ => .error .panicked
    | .mapGet, .map es =>
      match n.Key with
      | some k => .ok (.copy (findEntry es k))
      | none => .error .panicked
    | .mapGet, .nilMap =>
      match n.Key with
      | some _ => .ok (.copy none)
      | none => .error .panicked
    | _, _ => .error .panicked

/-- Value-level semantics of a node write function
(`node.Set(node, rv, val)`), models `fieldSet`, `mapSet` and `indexSet`
from `path.go`.  `settable` is the addressability of the slot `rv`; the
returned pair is (error, updated slot).

* `fieldSet`: `Concrete(rv).Field(i)` (panics on a kind mismatch or an
  out-of-range field), then `ErrSetNotSupported` unless the field is
  settable, then an in-place write.
* `mapSet`: `Concrete(rv).SetMapIndex(key, val)` — needs no
  addressability, replaces or inserts the entry; panics on a nil map or
  a kind mismatch.
* `indexSet`: rejects a negative index with `ErrSetNotSupported`;
  while the index is out of range and the sequence value is settable,
  appends a zero element (`reflect.Append` — panics on an array); then
  `Index` (panics if still out of range) and an element write
  (slice elements are always settable; array elements inherit the
  array's addressability, yielding `ErrSetNotSupported` when not
  settable). -/
def applySet (sf : SetF) (n : Node) (settable : Bool) (rv : Val) (x : Val) :
    Option Err × Val :=
  match sf with
  | .fieldSet i =>
    match derefChain rv with
    | none => (some .panicked, rv)
    | some dc =>
      match dc.2 with
      | .strct fs =>
        match fs[i]? with
        | some _ =>
          if settable || !dc.1.isEmpty then
            (none, writeAt (dc.1 ++ [.field i]) rv x)
          else (some .errSetNotSupported, rv)
        | none => (some .panicked, rv)
      | _ => (some .panicked, rv)
  | .mapSet =>
    match n.Key with
    | some k =>
      match derefChain rv with
      | none => (some .panicked, rv)
      | some dc =>
        match dc.2 with
        | .map es => (none, writeAt dc.1 rv (.map (insertEntry es k x)))
        | _ => (some .panicked, rv)
    | none => (some .panicked, rv)
  | .indexSet =>
    match n.Key with
    | some (.i ix) =>
      if ix < 0 then (some .errSetNotSupported, rv)
      else
        match derefChain rv with
        | none => (some .panicked, rv)
        | some dc =>
          match dc.2 with
          | .slice t es =>
            let csettable := settable || !dc.1.isEmpty
            let es2 := if csettable then
                es ++ List.replicate (ix.toNat + 1 - es.length) (zeroVal t)
              else es
            if ix.toNat < es2.length then
              (none, writeAt dc.1 rv (.slice t (es2.set ix.toNat x)))
            else (some .panicked, rv)
          | .array es =>
            if ix.toNat < es.length then
              if settable || !dc.1.isEmpty then
                (none, writeAt (dc.1 ++ [.index ix.toNat]) rv x)
              else (some .errSetNotSupported, rv)
            else (some .panicked, rv)
          | _ => (some .panicked, rv)
    | _ => (some .panicked, rv)

/-- The pre-check loop of `Path.Set` (`path.go` lines 142-150): every
node must have a write function (`ErrSetNotSupported`), every node
before the last must have a read function (`ErrGetNotSupported`); the
first offending node in order decides the error. -/
def precheck : List Node → Option Err
  | [] => none
  | [n] => if n.Set.isNone then some .errSetNotSupported else none
  | n :: rest =>
    if n.Set.isNone then some .errSetNotSupported
    else if n.Get.isNone then some .errGetNotSupported
    else precheck rest

/-- The body of `Path.Set` after the pre-check, for a non-empty node
list: explicit-state form of the source's forward pass / final write /
backward write-back pass over the `values` array.

Correspondence with the source (`path.go` lines 152-199):

* The iterative forward pass materializes `values[0..last]` and then
  mutates; this recursion processes the same reads in the same order,
  performs the final node's write at the bottom, and performs the
  write-back stores on the way out (deepest first) — the same order the
  backward loop `for k := last; k > setBackTo; k--` uses.  No read ever
  happens after a mutation in either formulation.
* `settable` is `values[i].CanSet()` for the current slot; `markSoFar`
  states whether `setBackTo` has been set at a *shallower* index.  The
  source stores values back at exactly the parent indices
  `k-1 ≥ setBackTo` (where `setBackTo` is the earliest index with a
  `CopyOnly` node or a vivified read), i.e. at a given level iff a mark
  exists at that level or above — which is `markSoFar || markHere`
  below.
* An `aliased` child with `settable = true` needs no `reflect.New`
  wrap: deeper in-place mutations land inside this slot, which the
  model realizes by writing the recursion's result back at `steps`
  unconditionally (this is what sharing storage means; the write-back
  store, when it also runs for such a level, re-stores identical
  content).  An `aliased` child with `settable = false` or a `copy`
  child is wrapped into a fresh addressable holder (`reflect.New`);
  the holder's content reaches the container only when the write-back
  pass covers this level — the wrap itself does *not* update
  `setBackTo` in the source, so when no node at this level or above
  was marked, the recursion's result is dropped exactly as the source
  drops it.
* `if !next.IsValid()` vivification uses `InitType(node.Type)`, which
  is total on the modelled type universe, so the `ErrGetInvalid`
  return for a failed `InitType` cannot trigger and has no model
  counterpart; the `InitValue(next, node.Type)` call happens on a
  settable slot and its `false` return (only possible for a
  non-settable slot) likewise cannot trigger, while the panics it can
  raise on kind mismatches are modelled by `initValue`. -/
def setGo : Val → Bool → Bool → List Node → Val → Option Err × Val
  | v, _, _, [], _ => (none, v)
  | v, settable, _, [n], val =>
    match n.Set with
    | some sf => applySet sf n settable v val
    | none => (some .panicked, v)
  | v, settable, markSoFar, n :: n2 :: rest, val =>
    match n.Get, n.Set with
    | some g, some sf =>
      match applyGetChild g n settable v with
      | .error e => (some e, v)
      | .ok ch =>
        let markHere := n.CopyOnly ||
          (match ch with | .copy none => true | _ => false)
        let child := match ch with
          | .aliased _ _ c => c
          | .copy (some c) => c
          | .copy none => initTypeVal n.ty
        match initValue child n.ty with
        | .error e => (some e, v)
        | .ok child2 =>
          let res := setGo child2 true (markSoFar || markHere) (n2 :: rest) val
          match ch with
          | .aliased steps true _ =>
            let v2 := writeAt steps v res.2
            match res.1 with
            | some e => (some e, v2)
            | none =>
              if markSoFar || markHere then applySet sf n settable v2 res.2
              else (none, v2)
          | _ =>
            match res.1 with
            | some e => (some e, v)
            | none =>
              if markSoFar || markHere then applySet sf n settable v res.2
              else (none, v)
    | _, _ => (some .panicked, v)

/-- Model of `Path`: an immutable node list rooted at a type. -/
structure Path where
  root : Ty
  nodes : List Node
deriving Repr

/-- `NewPath`. -/
def NewPath (root : Ty) : Path := ⟨root, []⟩

/-- `Path.IsEmpty`. -/
def Path.IsEmpty (p : Path) : Bool := p.nodes.isEmpty

/-- `Path.End`: the last node, if any. -/
def Path.End (p : Path) : Option Node := p.nodes.getLast?

/-- `Path.Type`: the root type for an empty path, else the last node's
value type. -/
def Path.Type (p : Path) : Ty :=
  match p.nodes.getLast? with
  | none => p.root
  | some n => n.ty

/-- `Path.NextNodes`. -/
def Path.NextNodes (p : Path) : Nodes := GetTypeNodes p.Type

/-- `Path.Next`: resolve the key against the nodes available at the
path's end; absence means "no such path".  The source builds a fresh
node slice (`NewPath` + two appends), leaving the receiver untouched. -/
def Path.Next (p : Path) (key : Key) : Option Path :=
  match p.NextNodes.ForKey key with
  | none => none
  | some n => some ⟨p.root, p.nodes ++ [n]⟩

/-- `Path.Get`. -/
def Path.Get (p : Path) (root : Val) : Except Err Val :=
  GetNodes p.nodes root

/-- Model of `Path.Set`.  `rootCanSet` is `Reflect(root).CanSet()` —
true only when the caller hands an addressable `reflect.Value` as the
root (a root passed as a plain Go value or pointer is itself
non-addressable; a pointer root still works because every node function
dereferences via `Concrete`).  The model returns (error, updated root
state); the source mutates `root` through the pointer/value passed in.
An empty path initializes and overwrites the root slot itself when it
is settable.  For a non-empty path: pre-check, then the forward /
write-back algorithm `setGo`. -/
def Path.Set (p : Path) (rootCanSet : Bool) (root : Val) (val : Val) :
    Option Err × Val :=
  match p.nodes with
  | [] =>
    if rootCanSet then (none, val) else (some .errSetNotSupported, root)
  | ns =>
    match precheck ns with
    | some e => (some e, root)
    | none => setGo root rootCanSet false ns val

/-- Model of `Ref`: a root value bound to a path.  `rootCanSet` is the
addressability of the stored `reflect.Value` (false for roots passed to
`NewRef` as `any` — which is why `NewRef`'s documentation asks for a
pointer when `Set` will be used). -/
structure Ref where
  root : Val
  rootCanSet : Bool := false
  path : Path
deriving Repr

/-- `NewRef`: an empty path at the root's type.  (The source reads the
type off the value with `rv.Type()`; model values do not carry struct
field names, so the type is a parameter here.) -/
def NewRef (v : Val) (t : Ty) : Ref :=
  ⟨v, false, NewPath t⟩

/-- `Ref.Get`. -/
def Ref.Get (r : Ref) : Except Err Val :=
  r.path.Get r.root

/-- `Ref.Set` (returns (error, updated root state); the source mutates
in place). -/
def Ref.Set (r : Ref) (value : Val) : Option Err × Val :=
  r.path.Set r.rootCanSet r.root value

/-- `Ref.Next`: extend the path; absence means "no such path". -/
def Ref.Next (r : Ref) (key : Key) : Option Ref :=
  match r.path.Next key with
  | none => none
  | some p => some { r with path := p }

/-- The observable outcome of `Ref.Nexts`: a reference, the nil `*Ref`
("no such path"), or a run-time panic. -/
inductive NextsRes where
  | ok (r : Ref)
  | noPath
  | panicked
deriving Repr

/-- Model of `Ref.Nexts`: an empty key list returns the receiver; a
single key delegates to `Next`; with two or more keys the source
evaluates `r.Next(keys[0]).Nexts(keys[1:])` — when `r.Next(keys[0])` is
nil, calling the value-receiver method `Nexts` on the nil `*Ref`
dereferences it and panics. -/
def Ref.Nexts (r : Ref) (keys : List Key) : NextsRes :=
  match keys with
  | [] => .ok r
  | [k] =>
    match r.Next k with
    | some r2 => .ok r2
    | none => .noPath
  | k :: rest =>
    match r.Next k with
    | some r2 => r2.Nexts rest
    | none => .panicked

/-- Model of `Ref.NextNodes` (`path.go` lines 232-239): when `Get`
succeeds the function returns nil before computing any node set.  When
`Get` fails, the `reflect.Value` returned alongside the error is the
invalid zero `Value` in every error case of `Path.Get`, and
`GetValueNodes` on it falls through its kind switch to
`GetTypeNodes(PointerMaybe(v).Type())`, where `.Type()` on the zero
`Value` panics. -/
def Ref.NextNodes (r : Ref) : Except Err (Option Nodes) :=
  match r.Get with
  | .ok _ => .ok none
  | .error _ => .error .panicked

/-- Model of `Decoder` restricted to the boolean keyword sets; the
remaining fields configure scalar/composite parsing outside the scope of
what is proved here. -/
structure Decoder where
  Trues : List String
  Falses : List String

/-- The boolean keyword sets installed by `NewDecoder`. -/
def NewDecoder : Decoder :=
  { Trues := ["true", "t", "yes", "ya", "y", "si", "1", "x"],
    Falses := ["false", "f", "no", "n", "0", ""] }

/-- The `reflect.Bool` arm of `Decoder.Parse`: lower-case the input,
then membership in `Trues` wins, then membership in `Falses`, otherwise
a parse error.  (For a plain `bool` target under the default decoder
neither the `TextUnmarshaler` branch nor a custom parser applies, so
`Parse` reaches exactly this arm.) -/
def Decoder.ParseBool (d : Decoder) (s : String) : Except String Bool :=
  let lower := s.toLower
  if lower ∈ d.Trues then .ok true
  else if lower ∈ d.Falses then .ok false
  else .error ("error parsing " ++ s ++ " as bool")

/-! ## Theorems -/

/-- **C9**: with the default decoder, decoding a string into a boolean
type is case-insensitive over the configured keyword sets: the result is
`true` iff the lowercased input is one of
`true/t/yes/ya/y/si/1/x`, `false` iff it is one of
`false/f/no/n/0/""`, and a parse error for every other input. -/
theorem c9_default_bool_keywords (s : String) :
    (NewDecoder.ParseBool s = .ok true ↔
      s.toLower ∈ (["true", "t", "yes", "ya", "y", "si", "1", "x"] : List String)) ∧
    (NewDecoder.ParseBool s = .ok false ↔
      s.toLower ∈ (["false", "f", "no", "n", "0", ""] : List String)) ∧
    (s.toLower ∉ (["true", "t", "yes", "ya", "y", "si", "1", "x"] : List String) →
     s.toLower ∉ (["false", "f", "no", "n", "0", ""] : List String) →
      ∃ e, NewDecoder.ParseBool s = .error e) := by
  unfold Decoder.ParseBool NewDecoder
  by_cases h1 : s.toLower ∈ (["true", "t", "yes", "ya", "y", "si", "1", "x"] : List String)
  · have h2 : s.toLower ∉ (["false", "f", "no", "n", "0", ""] : List String) := by
      intro h2
      simp only [List.mem_cons, List.not_mem_nil, or_false] at h1 h2
      rcases h1 with h | h | h | h | h | h | h | h <;> rw [h] at h2 <;>
        exact absurd h2 (by decide)
    simp [h1, h2]
  · by_cases h2 : s.toLower ∈ (["false", "f", "no", "n", "0", ""] : List String)
    · simp [h1, h2]
    · simp [h1, h2]

/-- **C8**: `Path.Next` never mutates the receiver — `Path` is a pure
value here, and the source builds a fresh node slice — and its result is
either `none` ("no such path") or a new `Path` with the same root type
whose node list is the receiver's node list with the newly bound node
appended. -/
theorem c8_path_next_pure (p : Path) (key : Key) :
    p.Next key = none ∨
    ∃ n, (GetTypeNodes p.Type).ForKey key = some n ∧
      p.Next key = some { root := p.root, nodes := p.nodes ++ [n] } := by
  unfold Path.Next Path.NextNodes
  cases h : (GetTypeNodes p.Type).ForKey key with
  | none => exact Or.inl rfl
  | some n => exact Or.inr ⟨n, rfl, rfl⟩

/-- A genuinely dynamic (map) node — as built by `GetTypeNodes` for a
map type. -/
def c7dyn : Node :=
  { KeyType := .str, ty := .int, CopyOnly := true,
    Get := some .mapGet, Set := some .mapSet }

/-- A concrete read-only node, the shape `addMethodNodes` produces for a
getter method: `GetValueNodes`/`GetTypeNodes` put such nodes next to the
dynamic node of a named map type with methods, and `SetNodes` accepts
arbitrary mixtures. -/
def c7conc : Node :=
  { Key := some (.s "M"), KeyString := "M", ty := .int,
    Get := some (.fieldGet 0) }

/-- A `Nodes` collection holding the dynamic node and a concrete node. -/
def c7nodes : Nodes := NewNodes [c7dyn, c7conc]

/-- **C7 counterexample**: on a collection with a dynamic node *and* a
concrete node, `ForKey` with a key whose string form is empty returns
the dynamic node straight out of the by-key-string table — still
unspecialized (`Key = none`), hence neither "the single dynamic node
specialized to k" (that would have `Key = some k`) nor a concrete
match, contradicting the claimed trichotomy. -/
theorem c7_counterexample :
    c7nodes.ForKey (.s "") = some c7dyn ∧
    c7dyn.IsDynamic = true ∧
    c7dyn.Key = none ∧
    (c7dyn.ForKey (.s "")).Key = some (.s "") ∧
    c7nodes.ForKey (.s "") ≠ some (c7dyn.ForKey (.s "")) := by
  refine ⟨rfl, rfl, rfl, rfl, fun h => ?_⟩
  rw [show c7nodes.ForKey (.s "") = some c7dyn from rfl] at h
  have h3 : c7dyn = c7dyn.ForKey (.s "") := Option.some.inj h
  have h4 := congrArg Node.Key h3
  rw [show c7dyn.Key = none from rfl,
      show (c7dyn.ForKey (.s "")).Key = some (.s "") from rfl] at h4
  exact Option.noConfusion h4

/-- **C7 amended**: `ForKey(k)` resolves in exactly one of two mutually
exclusive modes: if the collection consists of exactly one node and it
is dynamic, the result is that node specialized to `k` (its `Key`
becomes `k`, its `KeyString` the canonical string form of `k`);
otherwise the result is exactly what the by-key-string table stores
under the string form of `k` (possibly nothing) — and such a table hit
is the unspecialized dynamic node itself when the collection also holds
other nodes and the key's string form is the empty string, so "concrete"
cannot be promised for the table mode. -/
theorem c7_forkey_cases (ns : Nodes) (k : Key) :
    (∃ d, ns.InOrder = [d] ∧ d.IsDynamic = true ∧
       ns.ForKey k = some (d.ForKey k) ∧
       (d.ForKey k).Key = some k ∧ (d.ForKey k).KeyString = ToString k) ∨
    ((∀ d, ns.InOrder = [d] → d.IsDynamic = false) ∧
       ns.ForKey k = lookupKS ns.ByKey (ToString k)) := by
  rcases hIO : ns.InOrder with _ | ⟨d, _ | ⟨d2, tl⟩⟩
  · exact Or.inr ⟨fun d hd => by simp at hd, by simp [Nodes.ForKey, hIO]⟩
  · by_cases hd : d.IsDynamic
    · refine Or.inl ⟨d, rfl, hd, by simp [Nodes.ForKey, hIO, hd], ?_, ?_⟩ <;>
        simp [Node.ForKey, hd]
    · refine Or.inr ⟨fun d2 h2 => ?_, by
        simp only [Nodes.ForKey, hIO]
        simp [hd]⟩
      have : d2 = d := by
        have := h2.symm.trans rfl
        cases h2
        rfl
      rw [this]
      exact Bool.not_eq_true _ ▸ (by simpa using hd)
  · exact Or.inr ⟨fun d3 h3 => by simp at h3, by simp [Nodes.ForKey, hIO]⟩

/-- The root type of the C3 failing input: a plain two-field struct. -/
def c3ty : Ty := .strct [("X", .int), ("Y", .int)]

/-- The C3 failing input: a reference to a struct value. -/
def c3ref : Ref := NewRef (.strct [.int 1, .int 2]) c3ty

/-- **C3** (`Ref.Nexts` at the failing input): with two keys of which
the *first* fails to resolve, `r.Next(keys[0])` is nil and the source
immediately invokes the value-receiver method `Nexts` on that nil
`*Ref`, which panics — instead of short-circuiting to the "no such
path" nil result the claim describes.  The empty-list case (same
reference back) and the single-key case (graceful nil) behave as
claimed. -/
theorem c3_nexts_panics :
    c3ref.Nexts [.s "Nope", .s "X"] = .panicked ∧
    c3ref.Nexts [] = .ok c3ref ∧
    c3ref.Nexts [.s "Nope"] = .noPath :=
  ⟨rfl, rfl, rfl⟩

/-- **C10**: whenever `Ref.Get` succeeds, `Ref.NextNodes` returns nil
without computing any node set; the node set of the referenced value is
only ever computed in the error branch. -/
theorem c10_nextnodes_none_on_success (r : Ref) (v : Val)
    (h : r.Get = .ok v) :
    r.NextNodes = .ok none := by
  unfold Ref.NextNodes
  rw [h]

/-- **C10 witness**: a concrete reference whose `Get` succeeds. -/
theorem c10_witness :
    (NewRef (.int 7) .int).Get = .ok (.int 7) ∧
    (NewRef (.int 7) .int).NextNodes = .ok none :=
  ⟨rfl, c10_nextnodes_none_on_success (NewRef (.int 7) .int) (.int 7) rfl⟩

/-- The growth behavior of `indexSet` on a settable slice: a write at a
non-negative index at or beyond the length appends zero elements of the
slice's element type until the index exists, then writes. -/
theorem indexSet_grow_eq (t : Ty) (n : Node) (ix : Int) (es : List Val)
    (x : Val) (hkey : n.Key = some (.i ix)) (hnn : 0 ≤ ix)
    (hlen : es.length ≤ ix.toNat) :
    applySet .indexSet n true (.slice t es) x =
      (none, .slice t
        ((es ++ List.replicate (ix.toNat + 1 - es.length) (zeroVal t)).set
          ix.toNat x)) := by
  have hneg : ¬ix < 0 := by omega
  have hin : ix.toNat <
      (es ++ List.replicate (ix.toNat + 1 - es.length) (zeroVal t)).length := by
    simp only [List.length_append, List.length_replicate]
    omega
  simp only [applySet, derefChain, hkey, hneg, if_false, if_true,
    Bool.true_or, writeAt]
  rw [if_pos hin]

/-- The length after an `indexSet` growth write. -/
theorem indexSet_grow_len (t : Ty) (ix : Int) (es : List Val) (x : Val)
    (_hnn : 0 ≤ ix) (hlen : es.length ≤ ix.toNat) :
    ((es ++ List.replicate (ix.toNat + 1 - es.length) (zeroVal t)).set
      ix.toNat x).length = ix.toNat + 1 := by
  simp only [List.length_set, List.length_append, List.length_replicate]
  omega

/-- **C4**: through the dynamic node of a slice type (whose bound copies
carry an integer key and the `indexSet` write function), writing at a
non-negative index at or beyond the current length, on a settable slice
value, appends zero-valued elements until the index exists and then
writes the value there — the new length is the index plus one, the old
elements are untouched — while a negative index is rejected with
`ErrSetNotSupported` and the slice is unchanged. -/
theorem c4_index_set_grows (t : Ty) (n : Node) (ix : Int) (es : List Val)
    (x : Val) (hkey : n.Key = some (.i ix)) :
    ((0 ≤ ix ∧ es.length ≤ ix.toNat) →
      applySet .indexSet n true (.slice t es) x =
        (none, .slice t
          ((es ++ List.replicate (ix.toNat + 1 - es.length) (zeroVal t)).set
            ix.toNat x)) ∧
      ((es ++ List.replicate (ix.toNat + 1 - es.length) (zeroVal t)).set
          ix.toNat x).length = ix.toNat + 1 ∧
      ((es ++ List.replicate (ix.toNat + 1 - es.length) (zeroVal t)).set
          ix.toNat x)[ix.toNat]? = some x ∧
      (∀ j, j < es.length →
        ((es ++ List.replicate (ix.toNat + 1 - es.length) (zeroVal t)).set
            ix.toNat x)[j]? = es[j]?)) ∧
    (ix < 0 →
      applySet .indexSet n true (.slice t es) x =
        (some .errSetNotSupported, .slice t es)) := by
  constructor
  · rintro ⟨hnn, hlen⟩
    refine ⟨indexSet_grow_eq t n ix es x hkey hnn hlen,
      indexSet_grow_len t ix es x hnn hlen, ?_, ?_⟩
    · rw [List.getElem?_set_self
        (by simp only [List.length_append, List.length_replicate]; omega)]
    · intro j hj
      rw [List.getElem?_set_ne (by omega)]
      exact List.getElem?_append_left hj
  · intro hneg
    simp [applySet, derefChain, hkey, hneg]

/-- The dynamic slice node bound to index 2, as `ForKey` produces it. -/
def c4node : Node :=
  { Key := some (.i 2), KeyString := "2", KeyType := .int, ty := .str,
    Get := some .indexGet, Set := some .indexSet }

/-- **C4 witness**: the library's slice dynamic node bound to index 2,
writing `"B"` into the one-element slice `["A"]`: it grows to length 3
(one zero element appended in between) and writes at index 2; index
`-1` is rejected. -/
theorem c4_witness :
    (GetTypeNodes (.slice .str)).ForKey (.i 2) = some c4node ∧
    (applySet .indexSet c4node true (.slice .str [.str "A"]) (.str "B") =
      (none, .slice .str
        (([Val.str "A"] ++ List.replicate ((2 : Int).toNat + 1 - 1) (zeroVal .str)).set
          (2 : Int).toNat (.str "B"))) ∧
     (([Val.str "A"] ++ List.replicate ((2 : Int).toNat + 1 - 1) (zeroVal .str)).set
        (2 : Int).toNat (.str "B")).length = (2 : Int).toNat + 1 ∧
     (([Val.str "A"] ++ List.replicate ((2 : Int).toNat + 1 - 1) (zeroVal .str)).set
        (2 : Int).toNat (.str "B"))[(2 : Int).toNat]? = some (.str "B") ∧
     (∀ j, j < ([Val.str "A"]).length →
       (([Val.str "A"] ++ List.replicate ((2 : Int).toNat + 1 - 1) (zeroVal .str)).set
          (2 : Int).toNat (.str "B"))[j]? = ([Val.str "A"])[j]?)) ∧
    applySet .indexSet c4node true (.slice .str []) (.str "B") =
      (none, .slice .str [zeroVal .str, zeroVal .str, .str "B"]) :=
  ⟨rfl,
   (c4_index_set_grows .str c4node 2 [.str "A"] (.str "B") rfl).1
     ⟨by omega, by simp⟩,
   rfl⟩

/-- `Path.Get` replays are compositional: once a prefix reads to `v`,
the whole path continues from `v`. -/
theorem getNodes_append (xs ys : List Node) (root v : Val)
    (h : GetNodes xs root = .ok v) :
    GetNodes (xs ++ ys) root = GetNodes ys v := by
  induction xs generalizing root with
  | nil =>
    simp only [GetNodes] at h
    cases h
    rfl
  | cons n rest ih =>
    simp only [GetNodes, List.cons_append] at h ⊢
    split at h
    · cases h
    · rename_i g hg
      split at h
      · cases h
      · cases h
      · rename_i v2 ha
        exact ih v2 h

/-- **C6**: `Path.Get` replays the nodes' read functions in order over
the root; the empty path returns the root unchanged with no error; as
soon as a traversed node lacks a read function the result is
`ErrGetNotSupported`, and as soon as a read yields an invalid value
(e.g. a missing map key) the result is `ErrGetInvalid` — in both cases
regardless of what comes after the offending node (short-circuit). -/
theorem c6_path_get_errors (rt : Ty) (root v : Val) (pre post : List Node)
    (n : Node) :
    (Path.Get ⟨rt, []⟩ root = .ok root) ∧
    (GetNodes pre root = .ok v → n.Get = none →
      Path.Get ⟨rt, pre ++ n :: post⟩ root = .error .errGetNotSupported) ∧
    (∀ g, GetNodes pre root = .ok v → n.Get = some g →
      applyGet g n v = .ok none →
      Path.Get ⟨rt, pre ++ n :: post⟩ root = .error .errGetInvalid) := by
  refine ⟨rfl, ?_, ?_⟩
  · intro h hg
    show GetNodes (pre ++ n :: post) root = _
    rw [getNodes_append _ _ _ _ h]
    simp [GetNodes, hg]
  · intro g h hg ha
    show GetNodes (pre ++ n :: post) root = _
    rw [getNodes_append _ _ _ _ h]
    simp [GetNodes, hg, ha]

/-- A node with a read function only. -/
def c6stop : Node := { ty := .int, Get := some (.fieldGet 0) }

/-- A bound map-entry node looking up the key `"B"`. -/
def c6mapB : Node :=
  { Key := some (.s "B"), KeyString := "B", ty := .int, CopyOnly := true,
    Get := some .mapGet, Set := some .mapSet }

/-- A write-only node (the shape of a setter-method node). -/
def c6wo : Node := { ty := .int, Set := some (.fieldSet 0) }

/-- **C6 witness**: the empty path returns the root; a write-only node
short-circuits with `ErrGetNotSupported` before the rest of the path; a
missing map key short-circuits with `ErrGetInvalid`. -/
theorem c6_witness :
    (Path.Get ⟨.int, []⟩ (.int 3) = .ok (.int 3)) ∧
    Path.Get ⟨.int, [] ++ c6wo :: [c6stop]⟩ (.strct [.int 1]) =
      .error .errGetNotSupported ∧
    Path.Get ⟨.int, [] ++ c6mapB :: [c6stop]⟩ (.map [(.s "A", .int 1)]) =
      .error .errGetInvalid :=
  ⟨(c6_path_get_errors .int (.int 3) (.int 3) [] [] c6stop).1,
   (c6_path_get_errors .int (.strct [.int 1]) (.strct [.int 1]) [] [c6stop]
      c6wo).2.1 rfl rfl,
   (c6_path_get_errors .int (.map [(.s "A", .int 1)]) (.map [(.s "A", .int 1)])
      [] [c6stop] c6mapB).2.2 .mapGet rfl rfl rfl⟩

/-- `precheck` returning no error means: every node has a write
function, and every node before the last has a read function. -/
theorem precheck_none_sound (ns : List Node) (h : precheck ns = none) :
    (∀ n ∈ ns, n.Set.isSome) ∧
    (∀ i n2, ns[i]? = some n2 → i + 1 < ns.length → n2.Get.isSome) := by
  induction ns with
  | nil => exact ⟨fun n hn => absurd hn (List.not_mem_nil n), fun i n2 h2 => by
      simp at h2⟩
  | cons n rest ih =>
    cases rest with
    | nil =>
      simp only [precheck] at h
      by_cases hs : n.Set.isNone
      · rw [if_pos hs] at h; cases h
      · refine ⟨fun m hm => ?_, fun i n2 h2 hlen => by simp at hlen⟩
        rcases List.mem_singleton.mp hm with rfl
        rw [Option.isSome_iff_ne_none]
        simpa using hs
    | cons n2 tail =>
      simp only [precheck] at h
      by_cases hs : n.Set.isNone
      · rw [if_pos hs] at h; cases h
      · rw [if_neg hs] at h
        by_cases hg : n.Get.isNone
        · rw [if_pos hg] at h; cases h
        · rw [if_neg hg] at h
          obtain ⟨ihs, ihg⟩ := ih h
          constructor
          · intro m hm
            rcases List.mem_cons.mp hm with rfl | hm
            · rw [Option.isSome_iff_ne_none]
              simpa using hs
            · exact ihs m hm
          · intro i m h2 hlen
            cases i with
            | zero =>
              simp only [List.getElem?_cons_zero] at h2
              cases h2
              rw [Option.isSome_iff_ne_none]
              simpa using hg
            | succ j =>
              simp only [List.getElem?_cons_succ] at h2
              refine ihg j m h2 ?_
              have hlen2 : j + 1 + 1 < tail.length + 1 + 1 := by
                simpa using hlen
              show j + 1 < tail.length + 1
              omega

/-- `precheck` only produces the two pre-check errors. -/
theorem precheck_errs (ns : List Node) (e : Err) (h : precheck ns = some e) :
    e = .errSetNotSupported ∨ e = .errGetNotSupported := by
  induction ns with
  | nil => cases h
  | cons n rest ih =>
    cases rest with
    | nil =>
      simp only [precheck] at h
      by_cases hs : n.Set.isNone
      · rw [if_pos hs] at h; cases h; exact Or.inl rfl
      · rw [if_neg hs] at h; cases h
    | cons n2 tail =>
      simp only [precheck] at h
      by_cases hs : n.Set.isNone
      · rw [if_pos hs] at h; cases h; exact Or.inl rfl
      · rw [if_neg hs] at h
        by_cases hg : n.Get.isNone
        · rw [if_pos hg] at h; cases h; exact Or.inr rfl
        · rw [if_neg hg] at h; exact ih h

/-- A `NotWritable` pre-check failure pinpoints a node with no write
function. -/
theorem precheck_set_err (ns : List Node)
    (h : precheck ns = some .errSetNotSupported) :
    ∃ n ∈ ns, n.Set = none := by
  induction ns with
  | nil => cases h
  | cons n rest ih =>
    cases rest with
    | nil =>
      simp only [precheck] at h
      by_cases hs : n.Set.isNone
      · exact ⟨n, List.mem_singleton.mpr rfl, Option.isNone_iff_eq_none.mp hs⟩
      · rw [if_neg hs] at h; cases h
    | cons n2 tail =>
      simp only [precheck] at h
      by_cases hs : n.Set.isNone
      · exact ⟨n, List.mem_cons_self .., Option.isNone_iff_eq_none.mp hs⟩
      · rw [if_neg hs] at h
        by_cases hg : n.Get.isNone
        · rw [if_pos hg] at h; cases h
        · rw [if_neg hg] at h
          obtain ⟨m, hm, hms⟩ := ih h
          exact ⟨m, List.mem_cons_of_mem _ hm, hms⟩

/-- A `NotReadable` pre-check failure pinpoints a non-last node with no
read function. -/
theorem precheck_get_err (ns : List Node)
    (h : precheck ns = some .errGetNotSupported) :
    ∃ i n2, ns[i]? = some n2 ∧ i + 1 < ns.length ∧ n2.Get = none := by
  induction ns with
  | nil => cases h
  | cons n rest ih =>
    cases rest with
    | nil =>
      simp only [precheck] at h
      by_cases hs : n.Set.isNone
      · rw [if_pos hs] at h; cases h
      · rw [if_neg hs] at h; cases h
    | cons n2 tail =>
      simp only [precheck] at h
      by_cases hs : n.Set.isNone
      · rw [if_pos hs] at h; cases h
      · rw [if_neg hs] at h
        by_cases hg : n.Get.isNone
        · refine ⟨0, n, rfl, ?_, Option.isNone_iff_eq_none.mp hg⟩
          simp only [List.length_cons]
          omega
        · rw [if_neg hg] at h
          obtain ⟨j, m, hj, hlen, hm⟩ := ih h
          refine ⟨j + 1, m, by simpa using hj, ?_, hm⟩
          simp only [List.length_cons] at hlen ⊢
          omega

/-- **C2**: for a non-empty path, `Path.Set` pre-checks every node for a
write function and every node before the last for a read function; when
a node fails the pre-check, `Set` returns the corresponding error
(`ErrSetNotSupported` resp. `ErrGetNotSupported` — the first offending
node in order decides which) before performing any mutation, leaving
the root value exactly as it was. -/
theorem c2_set_precheck_atomic (p : Path) (rootCanSet : Bool) (root val : Val)
    (h : (∃ n ∈ p.nodes, n.Set = none) ∨
         (∃ i n2, p.nodes[i]? = some n2 ∧ i + 1 < p.nodes.length ∧
           n2.Get = none)) :
    ∃ e, p.Set rootCanSet root val = (some e, root) ∧
      (e = .errSetNotSupported ∨ e = .errGetNotSupported) ∧
      (e = .errSetNotSupported → ∃ n ∈ p.nodes, n.Set = none) ∧
      (e = .errGetNotSupported →
        ∃ i n2, p.nodes[i]? = some n2 ∧ i + 1 < p.nodes.length ∧
          n2.Get = none) := by
  have hsome : ∃ e, precheck p.nodes = some e := by
    cases hpre : precheck p.nodes with
    | some e => exact ⟨e, rfl⟩
    | none =>
      obtain ⟨hset, hget⟩ := precheck_none_sound p.nodes hpre
      rcases h with ⟨n, hn, hns⟩ | ⟨i, n2, hi, hlen, hg⟩
      · have h2 := hset n hn
        rw [hns] at h2
        simp at h2
      · have h2 := hget i n2 hi hlen
        rw [hg] at h2
        simp at h2
  obtain ⟨e, hpre⟩ := hsome
  refine ⟨e, ?_, precheck_errs _ _ hpre,
    fun he => precheck_set_err _ (he ▸ hpre),
    fun he => precheck_get_err _ (he ▸ hpre)⟩
  cases hns : p.nodes with
  | nil =>
    rcases h with ⟨n, hn, _⟩ | ⟨i, n2, hi, _, _⟩
    · rw [hns] at hn; exact absurd hn (List.not_mem_nil n)
    · rw [hns] at hi; simp at hi
  | cons a l =>
    rw [hns] at hpre
    simp only [Path.Set, hns, hpre]

/-- A read-only node (the shape of a getter-method node). -/
def c2ro : Node := { ty := .int, Get := some (.fieldGet 0) }

/-- A one-node path whose only node is read-only. -/
def c2path : Path := ⟨.strct [("X", .int)], [c2ro]⟩

/-- **C2 witness**: setting through a read-only node fails the
pre-check with `ErrSetNotSupported` and leaves the root untouched. -/
theorem c2_witness :
    ∃ e, c2path.Set false (.strct [.int 1]) (.int 2) =
        (some e, .strct [.int 1]) ∧
      (e = .errSetNotSupported ∨ e = .errGetNotSupported) ∧
      (e = .errSetNotSupported → ∃ n ∈ c2path.nodes, n.Set = none) ∧
      (e = .errGetNotSupported →
        ∃ i n2, c2path.nodes[i]? = some n2 ∧ i + 1 < c2path.nodes.length ∧
          n2.Get = none) :=
  c2_set_precheck_atomic c2path false (.strct [.int 1]) (.int 2)
    (Or.inl ⟨c2ro, List.mem_singleton.mpr rfl, rfl⟩)

/-! ### `Nat.repr` (decimal printing, used for index key strings) is
injective -/

/-- With enough fuel, the core decimal printer produces the base-10
digits (most significant first) in front of the accumulator. -/
theorem toDigitsCore_eq_digits :
    ∀ (fuel n : Nat) (ds : List Char), 0 < n → n < fuel →
      Nat.toDigitsCore 10 fuel n ds =
        ((Nat.digits 10 n).map Nat.digitChar).reverse ++ ds := by
  intro fuel
  induction fuel with
  | zero => intro n ds hn hf; omega
  | succ f ih =>
    intro n ds hn hf
    simp only [Nat.toDigitsCore]
    by_cases h : n / 10 = 0
    · rw [if_pos h]
      rw [Nat.digits_def' (by norm_num : (1:Nat) < 10) hn, h, Nat.digits_zero]
      simp
    · rw [if_neg h]
      have hn2 : 0 < n / 10 := Nat.pos_of_ne_zero h
      have hlt : n / 10 < f := by
        have := Nat.div_lt_self hn (by norm_num : (1:Nat) < 10)
        omega
      rw [ih (n / 10) (Nat.digitChar (n % 10) :: ds) hn2 hlt]
      rw [Nat.digits_def' (by norm_num : (1:Nat) < 10) hn]
      simp

/-- For a positive number, `Nat.toDigits` is the digit list rendered
most-significant-first. -/
theorem toDigits_eq_digits (n : Nat) (hn : 0 < n) :
    Nat.toDigits 10 n = ((Nat.digits 10 n).map Nat.digitChar).reverse := by
  rw [Nat.toDigits, toDigitsCore_eq_digits (n + 1) n [] hn (by omega)]
  simp

/-- `Nat.digitChar` is injective below the base. -/
theorem digitChar_inj {a b : Nat} (ha : a < 10) (hb : b < 10)
    (h : Nat.digitChar a = Nat.digitChar b) : a = b := by
  interval_cases a <;> interval_cases b <;> revert h <;> decide

/-- Mapping `digitChar` over digit lists is injective. -/
theorem map_digitChar_inj :
    ∀ (l1 l2 : List Nat), (∀ x ∈ l1, x < 10) → (∀ x ∈ l2, x < 10) →
      l1.map Nat.digitChar = l2.map Nat.digitChar → l1 = l2 := by
  intro l1
  induction l1 with
  | nil =>
    intro l2 _ _ h
    cases l2 with
    | nil => rfl
    | cons b tl => simp at h
  | cons a tl ih =>
    intro l2 h1 h2 h
    cases l2 with
    | nil => simp at h
    | cons b tl2 =>
      simp only [List.map_cons, List.cons.injEq] at h
      rw [digitChar_inj (h1 a (List.mem_cons_self ..))
          (h2 b (List.mem_cons_self ..)) h.1,
        ih tl2 (fun x hx => h1 x (List.mem_cons_of_mem _ hx))
          (fun x hx => h2 x (List.mem_cons_of_mem _ hx)) h.2]

/-- A positive number never prints as `"0"`. -/
theorem toDigits_ne_zero_of_pos (n : Nat) (hn : 0 < n) :
    Nat.toDigits 10 n ≠ (['0'] : List Char) := by
  intro h
  rw [toDigits_eq_digits n hn] at h
  have h2 : (Nat.digits 10 n).map Nat.digitChar = ['0'] := by
    have h3 := congrArg List.reverse h
    simpa using h3
  have h4 : Nat.digits 10 n = [0] := by
    refine map_digitChar_inj _ [0]
      (fun x hx => Nat.digits_lt_base (by norm_num) hx) ?_ ?_
    · intro x hx
      simp only [List.mem_singleton] at hx
      omega
    · rw [h2]
      rfl
  have h5 := Nat.ofDigits_digits 10 n
  rw [h4] at h5
  simp [Nat.ofDigits] at h5
  omega

/-- `List.asString` is injective. -/
theorem asString_inj (l1 l2 : List Char) (h : l1.asString = l2.asString) :
    l1 = l2 :=
  congrArg String.data h

/-- `Nat.repr` is injective: distinct numbers have distinct decimal
strings. -/
theorem natRepr_inj (m n : Nat) (h : Nat.repr m = Nat.repr n) : m = n := by
  have h2 : Nat.toDigits 10 m = Nat.toDigits 10 n := asString_inj _ _ h
  rcases Nat.eq_zero_or_pos m with rfl | hm
  · rcases Nat.eq_zero_or_pos n with rfl | hn
    · rfl
    · have hz : Nat.toDigits 10 0 = (['0'] : List Char) := rfl
      rw [hz] at h2
      exact absurd h2.symm (toDigits_ne_zero_of_pos n hn)
  · rcases Nat.eq_zero_or_pos n with rfl | hn
    · have hz : Nat.toDigits 10 0 = (['0'] : List Char) := rfl
      rw [hz] at h2
      exact absurd h2 (toDigits_ne_zero_of_pos m hm)
    · rw [toDigits_eq_digits m hm, toDigits_eq_digits n hn] at h2
      have h3 := congrArg List.reverse h2
      simp only [List.reverse_reverse] at h3
      exact Nat.digits_inj_iff.mp (map_digitChar_inj _ _
        (fun x hx => Nat.digits_lt_base (by norm_num) hx)
        (fun x hx => Nat.digits_lt_base (by norm_num) hx) h3)

/-- `Int.repr` is injective on the non-negative integers. -/
theorem intRepr_ofNat_inj (a b : Nat)
    (h : Int.repr (Int.ofNat a) = Int.repr (Int.ofNat b)) : a = b :=
  natRepr_inj a b h

/-! ### `NewNodes` on a list of distinct key strings enumerates it -/

/-- Looking up a string absent from all key strings fails. -/
theorem lookupKS_pairs_none (xs : List Node) (s : String)
    (h : ∀ m ∈ xs, s ≠ m.KeyString) :
    lookupKS (xs.map (fun n => (n.KeyString, n))) s = none := by
  induction xs with
  | nil => rfl
  | cons a tl ih =>
    simp only [List.map_cons, lookupKS]
    rw [if_neg fun he => h a (List.mem_cons_self ..) he.symm]
    exact ih fun m hm => h m (List.mem_cons_of_mem _ hm)

/-- Folding `Nodes.Add` over nodes with pairwise-distinct key strings
(all fresh for the accumulator) appends them all, keeping `ByKey` in
sync with `InOrder`. -/
theorem newNodes_fold (l : List Node) :
    ∀ (acc : Nodes),
      acc.ByKey = acc.InOrder.map (fun n => (n.KeyString, n)) →
      l.Pairwise (fun a b => a.KeyString ≠ b.KeyString) →
      (∀ n ∈ l, ∀ m ∈ acc.InOrder, n.KeyString ≠ m.KeyString) →
      (l.foldl Nodes.Add acc).InOrder = acc.InOrder ++ l ∧
      (l.foldl Nodes.Add acc).ByKey =
        (acc.InOrder ++ l).map (fun n => (n.KeyString, n)) := by
  induction l with
  | nil =>
    intro acc hinv _ _
    constructor
    · simp
    · simpa using hinv
  | cons a tl ih =>
    intro acc hinv hpw hfresh
    have hnone : lookupKS acc.ByKey a.KeyString = none := by
      rw [hinv]
      exact lookupKS_pairs_none _ _
        (fun m hm => hfresh a (List.mem_cons_self ..) m hm)
    have hAdd : Nodes.Add acc a =
        { InOrder := acc.InOrder ++ [a],
          ByKey := acc.ByKey ++ [(a.KeyString, a)] } := by
      simp [Nodes.Add, hnone]
    simp only [List.foldl_cons, hAdd]
    obtain ⟨h1, h2⟩ := ih
      { InOrder := acc.InOrder ++ [a], ByKey := acc.ByKey ++ [(a.KeyString, a)] }
      (by simp [hinv])
      hpw.of_cons
      (by
        intro n hn m hm
        rcases List.mem_append.mp hm with hm | hm
        · exact hfresh n (List.mem_cons_of_mem _ hn) m hm
        · rcases List.mem_singleton.mp hm with rfl
          exact fun he => List.rel_of_pairwise_cons hpw hn he.symm)
    refine ⟨?_, ?_⟩
    · rw [h1, List.append_assoc]
      rfl
    · rw [h2, List.append_assoc]
      rfl

/-- The concrete node `GetTypeNodes` builds for index `i` of an array
type with element type `t`. -/
def arrayNode (t : Ty) (i : Nat) : Node :=
  { Key := some (.i (Int.ofNat i)), KeyType := .int,
    KeyString := ToString (.i (Int.ofNat i)), ty := t,
    Get := some .indexGet, Set := some .indexSet }

/-- `GetTypeNodes` on a length-`N` array type enumerates exactly the
index nodes `0..N-1` in order, with the by-key table in sync. -/
theorem getTypeNodes_array (N : Nat) (t : Ty) :
    (GetTypeNodes (.array N t)).InOrder = (List.range N).map (arrayNode t) ∧
    (GetTypeNodes (.array N t)).ByKey =
      ((List.range N).map (arrayNode t)).map (fun n => (n.KeyString, n)) := by
  have harr : GetTypeNodes (.array N t) =
      NewNodes ((List.range N).map (arrayNode t)) := rfl
  rw [harr, NewNodes]
  have hpw : ((List.range N).map (arrayNode t)).Pairwise
      (fun a b => a.KeyString ≠ b.KeyString) := by
    rw [List.pairwise_map]
    refine (List.pairwise_lt_range N).imp ?_
    intro a b hab he
    have : a = b := intRepr_ofNat_inj a b he
    omega
  obtain ⟨h1, h2⟩ := newNodes_fold ((List.range N).map (arrayNode t)) {} rfl hpw
    (fun n _ m hm => absurd hm (List.not_mem_nil m))
  constructor
  · simpa using h1
  · simpa using h2

/-- When the collection is not a single dynamic node, `ForKey` is the
table lookup. -/
theorem forkey_eq_lookup (ns : Nodes) (k : Key)
    (h : ∀ d, ns.InOrder = [d] → d.IsDynamic = false) :
    ns.ForKey k = lookupKS ns.ByKey (ToString k) := by
  rcases hIO : ns.InOrder with _ | ⟨d, _ | ⟨d2, tl⟩⟩
  · simp [Nodes.ForKey, hIO]
  · simp [Nodes.ForKey, hIO, h d hIO]
  · simp [Nodes.ForKey, hIO]

/-- Index `N` does not exist as a node of a length-`N` array type. -/
theorem forkey_array_none (N : Nat) (t : Ty) :
    (GetTypeNodes (.array N t)).ForKey (.i (Int.ofNat N)) = none := by
  obtain ⟨h1, h2⟩ := getTypeNodes_array N t
  rw [forkey_eq_lookup _ _ ?hdyn]
  · rw [h2]
    apply lookupKS_pairs_none
    intro m hm
    simp only [List.mem_map, List.mem_range] at hm
    obtain ⟨i, hi, rfl⟩ := hm
    intro he
    have : N = i := intRepr_ofNat_inj N i he
    omega
  case hdyn =>
    intro d hd
    rw [h1] at hd
    have hN : N = 1 := by
      have hlen := congrArg List.length hd
      simpa using hlen
    subst hN
    have hd2 : d = arrayNode t 0 := by
      have : (List.range 1).map (arrayNode t) = [arrayNode t 0] := rfl
      rw [this] at hd
      exact (List.cons.injEq _ _ _ _ ▸ hd).1.symm
    rw [hd2]
    rfl

/-- The dynamic node `GetTypeNodes` builds for a slice type. -/
def sliceDynNode (t : Ty) : Node :=
  { KeyType := .int, ty := t, Get := some .indexGet, Set := some .indexSet }

/-- **C5**: a length-`N` fixed array type has exactly one concrete node
per index `0..N-1`, in order, each keyed by the decimal string of its
index (and none of them dynamic) — so extending a path of that type by
index `N` yields the "no such path" absence (`Path.Next` returns
`none`); whereas on a slice type the same index resolves to the dynamic
node bound to `N`, and a write through that node on a slice of length
at most `N` auto-extends the slice and succeeds. -/
theorem c5_array_rejects_slice_grows (N : Nat) (t : Ty) (p : Path)
    (es : List Val) (x : Val) :
    ((GetTypeNodes (.array N t)).InOrder = (List.range N).map (arrayNode t) ∧
     (∀ i, i < N →
       (GetTypeNodes (.array N t)).InOrder[i]? = some (arrayNode t i)) ∧
     (∀ i, (arrayNode t i).KeyString = Nat.repr i ∧
       (arrayNode t i).IsDynamic = false)) ∧
    (p.Type = .array N t → p.Next (.i (Int.ofNat N)) = none) ∧
    (p.Type = .slice t →
      p.Next (.i (Int.ofNat N)) =
        some ⟨p.root, p.nodes ++ [(sliceDynNode t).ForKey (.i (Int.ofNat N))]⟩ ∧
      ((sliceDynNode t).ForKey (.i (Int.ofNat N))).Set = some .indexSet ∧
      (es.length ≤ N →
        applySet .indexSet ((sliceDynNode t).ForKey (.i (Int.ofNat N))) true
            (.slice t es) x =
          (none, .slice t
            ((es ++ List.replicate (N + 1 - es.length) (zeroVal t)).set N x)) ∧
        ((es ++ List.replicate (N + 1 - es.length) (zeroVal t)).set N x).length
          = N + 1)) := by
  obtain ⟨h1, h2⟩ := getTypeNodes_array N t
  refine ⟨⟨h1, ?_, fun i => ⟨rfl, rfl⟩⟩, ?_, ?_⟩
  · intro i hi
    rw [h1]
    simp [List.getElem?_range hi]
  · intro htype
    unfold Path.Next Path.NextNodes
    rw [htype, forkey_array_none]
  · intro htype
    have hfk : (GetTypeNodes (.slice t)).ForKey (.i (Int.ofNat N)) =
        some ((sliceDynNode t).ForKey (.i (Int.ofNat N))) := rfl
    refine ⟨?_, rfl, ?_⟩
    · unfold Path.Next Path.NextNodes
      rw [htype, hfk]
    · intro hlen
      have hnn : (0 : Int) ≤ Int.ofNat N := Int.natCast_nonneg N
      have hkey : ((sliceDynNode t).ForKey (.i (Int.ofNat N))).Key =
          some (.i (Int.ofNat N)) := rfl
      have hgrow := indexSet_grow_eq t ((sliceDynNode t).ForKey (.i (Int.ofNat N)))
        (Int.ofNat N) es x hkey hnn (by simpa using hlen)
      have hglen := indexSet_grow_len t (Int.ofNat N) es x hnn
        (by simpa using hlen)
      simp only [Int.toNat_ofNat] at hgrow hglen
      exact ⟨hgrow, hglen⟩

/-- **C5 witness**: index 2 on a length-2 string array does not resolve
(`Path.Next` gives `none`); index 2 on a string slice resolves to the
bound dynamic node, and writing `"B"` through it on the one-element
slice `["A"]` grows the slice and succeeds; node 1 of the array type is
the concrete index node for 1. -/
theorem c5_witness :
    (NewPath (.array 2 .str)).Next (.i (Int.ofNat 2)) = none ∧
    (NewPath (.slice .str)).Next (.i (Int.ofNat 2)) =
      some ⟨.slice .str,
        ([] : List Node) ++ [(sliceDynNode .str).ForKey (.i (Int.ofNat 2))]⟩ ∧
    applySet .indexSet ((sliceDynNode .str).ForKey (.i (Int.ofNat 2))) true
        (.slice .str [.str "A"]) (.str "B") =
      (none, .slice .str
        (([Val.str "A"] ++
          List.replicate (2 + 1 - [Val.str "A"].length) (zeroVal .str)).set 2
          (.str "B"))) ∧
    (GetTypeNodes (.array 2 .str)).InOrder[1]? = some (arrayNode .str 1) :=
  ⟨(c5_array_rejects_slice_grows 2 .str (NewPath (.array 2 .str)) []
      (.int 0)).2.1 rfl,
   ((c5_array_rejects_slice_grows 2 .str (NewPath (.slice .str)) [.str "A"]
      (.str "B")).2.2 rfl).1,
   (((c5_array_rejects_slice_grows 2 .str (NewPath (.slice .str)) [.str "A"]
      (.str "B")).2.2 rfl).2.2 (by decide)).1,
   (c5_array_rejects_slice_grows 2 .str (NewPath (.array 2 .str)) []
      (.int 0)).1.2.1 1 (by decide)⟩

/-! ### Storage-path lemmas for the `Path.Set` algorithm -/

/-- The concrete value a deref chain ends in is not pointer-shaped. -/
def notPtr : Val → Prop
  | .ptr _ => False
  | .nilPtr => False
  | _ => True

/-- Every value is a pointer, the nil pointer, or its own concrete
value. -/
theorem derefChain_shape (v : Val) :
    (∃ w, v = .ptr w) ∨ v = .nilPtr ∨
      (derefChain v = some ([], v) ∧ notPtr v) := by
  cases v
  case ptr w => exact Or.inl ⟨w, rfl⟩
  case nilPtr => exact Or.inr (Or.inl rfl)
  all_goals exact Or.inr (Or.inr ⟨rfl, trivial⟩)

/-- Helper for the spine lemmas: the non-pointer base case. -/
theorem spine_base {v : Val} {ds : List Step} {c : Val}
    (h : derefChain v = some (ds, c))
    (hv : derefChain v = some ([], v)) : ds = [] ∧ c = v := by
  rw [hv] at h
  cases h
  exact ⟨rfl, rfl⟩

/-- The concrete value of a deref chain is not pointer-shaped. -/
theorem derefChain_notPtr : ∀ (v : Val) (ds : List Step) (c : Val),
    derefChain v = some (ds, c) → notPtr c
  | .ptr w, ds, c, h => by
    simp only [derefChain] at h
    cases hw : derefChain w with
    | none => rw [hw] at h; cases h
    | some p =>
      rw [hw] at h
      cases h
      exact derefChain_notPtr w p.1 p.2 hw
  | .nilPtr, ds, c, h => by cases h
  | .int m, ds, c, h => by obtain ⟨rfl, rfl⟩ := spine_base h rfl; trivial
  | .str m, ds, c, h => by obtain ⟨rfl, rfl⟩ := spine_base h rfl; trivial
  | .strct fs, ds, c, h => by obtain ⟨rfl, rfl⟩ := spine_base h rfl; trivial
  | .map es, ds, c, h => by obtain ⟨rfl, rfl⟩ := spine_base h rfl; trivial
  | .nilMap, ds, c, h => by obtain ⟨rfl, rfl⟩ := spine_base h rfl; trivial
  | .slice t es, ds, c, h => by obtain ⟨rfl, rfl⟩ := spine_base h rfl; trivial
  | .array es, ds, c, h => by obtain ⟨rfl, rfl⟩ := spine_base h rfl; trivial

/-- A non-pointer value is its own concrete value. -/
theorem derefChain_of_notPtr (v : Val) (h : notPtr v) :
    derefChain v = some ([], v) := by
  rcases derefChain_shape v with ⟨w, rfl⟩ | rfl | ⟨h2, _⟩
  · exact absurd h (by simp [notPtr])
  · exact absurd h (by simp [notPtr])
  · exact h2

/-- Reading below the deref spine is reading in the concrete value. -/
theorem readAt_spine : ∀ (v : Val) (ds : List Step) (c : Val)
    (rest : List Step), derefChain v = some (ds, c) →
    readAt (ds ++ rest) v = readAt rest c
  | .ptr w, ds, c, rest, h => by
    simp only [derefChain] at h
    cases hw : derefChain w with
    | none => rw [hw] at h; cases h
    | some p =>
      rw [hw] at h
      cases h
      show readAt (p.1 ++ rest) w = readAt rest p.2
      exact readAt_spine w p.1 p.2 rest hw
  | .nilPtr, ds, c, rest, h => by cases h
  | .int m, ds, c, rest, h => by
    obtain ⟨rfl, rfl⟩ := spine_base h rfl
    rfl
  | .str m, ds, c, rest, h => by
    obtain ⟨rfl, rfl⟩ := spine_base h rfl
    rfl
  | .strct fs, ds, c, rest, h => by
    obtain ⟨rfl, rfl⟩ := spine_base h rfl
    rfl
  | .map es, ds, c, rest, h => by
    obtain ⟨rfl, rfl⟩ := spine_base h rfl
    rfl
  | .nilMap, ds, c, rest, h => by
    obtain ⟨rfl, rfl⟩ := spine_base h rfl
    rfl
  | .slice t es, ds, c, rest, h => by
    obtain ⟨rfl, rfl⟩ := spine_base h rfl
    rfl
  | .array es, ds, c, rest, h => by
    obtain ⟨rfl, rfl⟩ := spine_base h rfl
    rfl

/-- Writing below the deref spine is writing in the concrete value. -/
theorem writeAt_spine : ∀ (v : Val) (ds : List Step) (c : Val)
    (rest : List Step) (x : Val), derefChain v = some (ds, c) →
    writeAt (ds ++ rest) v x = writeAt ds v (writeAt rest c x)
  | .ptr w, ds, c, rest, x, h => by
    simp only [derefChain] at h
    cases hw : derefChain w with
    | none => rw [hw] at h; cases h
    | some p =>
      rw [hw] at h
      cases h
      show Val.ptr (writeAt (p.1 ++ rest) w x) =
        Val.ptr (writeAt p.1 w (writeAt rest p.2 x))
      rw [writeAt_spine w p.1 p.2 rest x hw]
  | .nilPtr, ds, c, rest, x, h => by cases h
  | .int m, ds, c, rest, x, h => by
    obtain ⟨rfl, rfl⟩ := spine_base h rfl
    rfl
  | .str m, ds, c, rest, x, h => by
    obtain ⟨rfl, rfl⟩ := spine_base h rfl
    rfl
  | .strct fs, ds, c, rest, x, h => by
    obtain ⟨rfl, rfl⟩ := spine_base h rfl
    rfl
  | .map es, ds, c, rest, x, h => by
    obtain ⟨rfl, rfl⟩ := spine_base h rfl
    rfl
  | .nilMap, ds, c, rest, x, h => by
    obtain ⟨rfl, rfl⟩ := spine_base h rfl
    rfl
  | .slice t es, ds, c, rest, x, h => by
    obtain ⟨rfl, rfl⟩ := spine_base h rfl
    rfl
  | .array es, ds, c, rest, x, h => by
    obtain ⟨rfl, rfl⟩ := spine_base h rfl
    rfl

/-- Replacing the concrete value below the spine with a non-pointer
value keeps the spine, now ending in the new value. -/
theorem derefChain_writeAt : ∀ (v : Val) (ds : List Step) (c : Val)
    (x : Val), derefChain v = some (ds, c) → notPtr x →
    derefChain (writeAt ds v x) = some (ds, x)
  | .ptr w, ds, c, x, h, hx => by
    simp only [derefChain] at h
    cases hw : derefChain w with
    | none => rw [hw] at h; cases h
    | some p =>
      rw [hw] at h
      cases h
      show derefChain (Val.ptr (writeAt p.1 w x)) = _
      simp only [derefChain, derefChain_writeAt w p.1 p.2 x hw hx,
        Option.map_some']
  | .nilPtr, ds, c, x, h, hx => by cases h
  | .int m, ds, c, x, h, hx => by
    obtain ⟨rfl, rfl⟩ := spine_base h rfl
    exact derefChain_of_notPtr x hx
  | .str m, ds, c, x, h, hx => by
    obtain ⟨rfl, rfl⟩ := spine_base h rfl
    exact derefChain_of_notPtr x hx
  | .strct fs, ds, c, x, h, hx => by
    obtain ⟨rfl, rfl⟩ := spine_base h rfl
    exact derefChain_of_notPtr x hx
  | .map es, ds, c, x, h, hx => by
    obtain ⟨rfl, rfl⟩ := spine_base h rfl
    exact derefChain_of_notPtr x hx
  | .nilMap, ds, c, x, h, hx => by
    obtain ⟨rfl, rfl⟩ := spine_base h rfl
    exact derefChain_of_notPtr x hx
  | .slice t es, ds, c, x, h, hx => by
    obtain ⟨rfl, rfl⟩ := spine_base h rfl
    exact derefChain_of_notPtr x hx
  | .array es, ds, c, x, h, hx => by
    obtain ⟨rfl, rfl⟩ := spine_base h rfl
    exact derefChain_of_notPtr x hx

/-- Writing the concrete value back over its own spine is the
identity. -/
theorem writeAt_spine_self : ∀ (v : Val) (ds : List Step) (c : Val),
    derefChain v = some (ds, c) → writeAt ds v c = v
  | .ptr w, ds, c, h => by
    simp only [derefChain] at h
    cases hw : derefChain w with
    | none => rw [hw] at h; cases h
    | some p =>
      rw [hw] at h
      cases h
      show Val.ptr (writeAt p.1 w p.2) = Val.ptr w
      rw [writeAt_spine_self w p.1 p.2 hw]
  | .nilPtr, ds, c, h => by cases h
  | .int m, ds, c, h => by
    obtain ⟨rfl, rfl⟩ := spine_base h rfl
    rfl
  | .str m, ds, c, h => by
    obtain ⟨rfl, rfl⟩ := spine_base h rfl
    rfl
  | .strct fs, ds, c, h => by
    obtain ⟨rfl, rfl⟩ := spine_base h rfl
    rfl
  | .map es, ds, c, h => by
    obtain ⟨rfl, rfl⟩ := spine_base h rfl
    rfl
  | .nilMap, ds, c, h => by
    obtain ⟨rfl, rfl⟩ := spine_base h rfl
    rfl
  | .slice t es, ds, c, h => by
    obtain ⟨rfl, rfl⟩ := spine_base h rfl
    rfl
  | .array es, ds, c, h => by
    obtain ⟨rfl, rfl⟩ := spine_base h rfl
    rfl

/-- An empty deref spine means the value is its own concrete value. -/
theorem derefChain_nil (v c : Val) (h : derefChain v = some ([], c)) :
    v = c := by
  rcases derefChain_shape v with ⟨w, rfl⟩ | rfl | ⟨h2, _⟩
  · simp only [derefChain] at h
    cases hw : derefChain w with
    | none => rw [hw] at h; cases h
    | some p => rw [hw] at h; cases h
  · cases h
  · exact (spine_base h h2).2.symm

/-- Setting a list element to the value it already holds is the
identity. -/
theorem list_set_self {α : Type} : ∀ (l : List α) (i : Nat) (a : α),
    l[i]? = some a → l.set i a = l
  | [], i, a, h => by cases h
  | x :: tl, 0, a, h => by
    simp only [List.getElem?_cons_zero] at h
    cases h
    rfl
  | x :: tl, i + 1, a, h => by
    simp only [List.getElem?_cons_succ] at h
    simp only [List.set_cons_succ, list_set_self tl i a h]

/-- `MapIndex` after `SetMapIndex` on the same key reads the written
value. -/
theorem findEntry_insertEntry : ∀ (es : List (Key × Val)) (k : Key)
    (x : Val), findEntry (insertEntry es k x) k = some x
  | [], k, x => by simp [insertEntry, findEntry]
  | e :: rest, k, x => by
    by_cases he : e.1 = k
    · simp [insertEntry, findEntry, he]
    · simp only [insertEntry, findEntry, if_neg he]
      exact findEntry_insertEntry rest k x

/-- `SetMapIndex` with the value already stored is the identity. -/
theorem insertEntry_self : ∀ (es : List (Key × Val)) (k : Key) (x : Val),
    findEntry es k = some x → insertEntry es k x = es
  | [], k, x, h => by cases h
  | e :: rest, k, x, h => by
    by_cases he : e.1 = k
    · simp only [findEntry, if_pos he] at h
      cases h
      simp only [insertEntry, if_pos he, Prod.mk.eta]
    · simp only [findEntry, if_neg he] at h
      simp [insertEntry, if_neg he, insertEntry_self rest k x h]

/-- A node is *matched* when its read and write functions are the paired
container accessors the package installs together: `getFieldGet i` with
`getFieldSet i` (struct fields), `indexGet` with `indexSet` and an
integer key (sequence slots), or `mapGet` with `mapSet`, `CopyOnly`, and
a key (map entries).  These are exactly the shapes `GetTypeNodes` /
`GetValueNodes` produce for container children (method-derived nodes
are one-sided and not matched). -/
def Node.matched (n : Node) : Bool :=
  match n.Get, n.Set with
  | some (.fieldGet i), some (.fieldSet j) => i == j
  | some .indexGet, some .indexSet =>
    (match n.Key with | some (.i _) => true | _ => false)
  | some .mapGet, some .mapSet => n.CopyOnly && n.Key.isSome
  | _, _ => false

/-- Unfolding of `Node.matched`. -/
theorem matched_cases (n : Node) (h : n.matched = true) :
    (∃ i, n.Get = some (.fieldGet i) ∧ n.Set = some (.fieldSet i)) ∨
    (∃ ix : Int, n.Get = some .indexGet ∧ n.Set = some .indexSet ∧
      n.Key = some (.i ix)) ∨
    (∃ k, n.Get = some .mapGet ∧ n.Set = some .mapSet ∧
      n.Key = some k ∧ n.CopyOnly = true) := by
  unfold Node.matched at h
  split at h
  · rename_i i j hg hs
    exact Or.inl ⟨j, by rw [hg, show i = j from by simpa using h], hs⟩
  · rename_i hg hs
    split at h
    · rename_i ix hk
      exact Or.inr (Or.inl ⟨ix, hg, hs, hk⟩)
    · cases h
  · rename_i hg hs
    rw [Bool.and_eq_true] at h
    obtain ⟨k, hk⟩ := Option.isSome_iff_exists.mp h.2
    exact Or.inr (Or.inr ⟨k, hg, hs, hk, h.1⟩)
  · cases h

/-- The slot condition under which `Path.Set` loses nothing: the slot is
addressable, or holds a (non-nil) pointer so that every node function
dereferences into addressable storage. -/
def goodSlot (settable : Bool) (v : Val) : Prop :=
  settable = true ∨ ∃ w, v = .ptr w

/-- Under `goodSlot`, a child read out of the slot by field/index access
is addressable. -/
theorem goodSlot_settable {settable : Bool} {v : Val} {ds : List Step}
    {c : Val} (hg : goodSlot settable v)
    (hdc : derefChain v = some (ds, c)) :
    (settable || !ds.isEmpty) = true := by
  rcases hg with rfl | ⟨w, rfl⟩
  · rfl
  · simp only [derefChain] at hdc
    cases hw : derefChain w with
    | none => rw [hw] at hdc; cases hdc
    | some p =>
      rw [hw] at hdc
      cases hdc
      simp

/-- Success inversion for a field read in the forward pass. -/
theorem applyGetChild_field_ok (i : Nat) (n : Node) (st : Bool) (v : Val)
    (ch : Child) (h : applyGetChild (.fieldGet i) n st v = .ok ch) :
    ∃ ds fs f, derefChain v = some (ds, .strct fs) ∧ fs[i]? = some f ∧
      ch = .aliased (ds ++ [.field i]) (st || !ds.isEmpty) f := by
  unfold applyGetChild at h
  split at h
  · cases h
  · rename_i dc hdc
    split at h
    · rename_i i2 fs hgeq hveq
      cases hgeq
      split at h
      · rename_i f hf
        cases h
        exact ⟨dc.1, fs, f, by rw [← hveq]; exact hdc, hf, rfl⟩
      · cases h
    · rename_i hgeq hveq
      cases hgeq
    · rename_i hgeq hveq
      cases hgeq
    · rename_i hgeq hveq
      cases hgeq
    · rename_i hgeq hveq
      cases hgeq
    · cases h

/-- Success inversion for a sequence read in the forward pass. -/
theorem applyGetChild_index_ok (n : Node) (st : Bool) (v : Val) (ch : Child)
    (ix : Int) (hkey : n.Key = some (.i ix))
    (h : applyGetChild .indexGet n st v = .ok ch) :
    ¬ix < 0 ∧
    ((∃ ds t es e, derefChain v = some (ds, .slice t es) ∧
        es[ix.toNat]? = some e ∧
        ch = .aliased (ds ++ [.index ix.toNat]) true e) ∨
     (∃ ds es e, derefChain v = some (ds, .array es) ∧
        es[ix.toNat]? = some e ∧
        ch = .aliased (ds ++ [.index ix.toNat]) (st || !ds.isEmpty) e)) := by
  unfold applyGetChild at h
  split at h
  · cases h
  · rename_i dc hdc
    split at h
    · rename_i hgeq hveq
      cases hgeq
    · rename_i t es hgeq hveq
      split at h
      · rename_i ix2 hk
        rw [hkey] at hk
        cases hk
        split at h
        · cases h
        · rename_i hneg
          split at h
          · rename_i e he
            cases h
            exact ⟨hneg, Or.inl ⟨dc.1, t, es, e, by rw [← hveq]; exact hdc,
              he, rfl⟩⟩
          · cases h
      · rename_i hnk
        rw [hkey] at hnk
        exact (hnk ix rfl).elim
    · rename_i es hgeq hveq
      split at h
      · rename_i ix2 hk
        rw [hkey] at hk
        cases hk
        split at h
        · cases h
        · rename_i hneg
          split at h
          · rename_i e he
            cases h
            exact ⟨hneg, Or.inr ⟨dc.1, es, e, by rw [← hveq]; exact hdc,
              he, rfl⟩⟩
          · cases h
      · rename_i hnk
        rw [hkey] at hnk
        exact (hnk ix rfl).elim
    · rename_i hgeq hveq
      cases hgeq
    · rename_i hgeq hveq
      cases hgeq
    · cases h

/-- Success inversion for a map read in the forward pass. -/
theorem applyGetChild_map_ok (n : Node) (st : Bool) (v : Val) (ch : Child)
    (k : Key) (hkey : n.Key = some k)
    (h : applyGetChild .mapGet n st v = .ok ch) :
    (∃ ds es, derefChain v = some (ds, .map es) ∧
      ch = .copy (findEntry es k)) ∨
    (∃ ds, derefChain v = some (ds, .nilMap) ∧ ch = .copy none) := by
  unfold applyGetChild at h
  split at h
  · cases h
  · rename_i dc hdc
    split at h
    · rename_i hgeq hveq
      cases hgeq
    · rename_i hgeq hveq
      cases hgeq
    · rename_i hgeq hveq
      cases hgeq
    · rename_i es hgeq hveq
      split at h
      · rename_i k2 hk
        rw [hkey] at hk
        cases hk
        cases h
        exact Or.inl ⟨dc.1, es, by rw [← hveq]; exact hdc, rfl⟩
      · rename_i hnk
        rw [hkey] at hnk
        cases hnk
    · rename_i hgeq hveq
      split at h
      · rename_i k2 hk
        rw [hkey] at hk
        cases hk
        cases h
        exact Or.inr ⟨dc.1, by rw [← hveq]; exact hdc, rfl⟩
      · rename_i hnk
        rw [hkey] at hnk
        cases hnk
    · cases h

/-- Success inversion for the field write function. -/
theorem applySet_field_ok (i : Nat) (n : Node) (st : Bool) (v x v2 : Val)
    (h : applySet (.fieldSet i) n st v x = (none, v2)) :
    ∃ ds fs, derefChain v = some (ds, .strct fs) ∧ (∃ f, fs[i]? = some f) ∧
      (st || !ds.isEmpty) = true ∧ v2 = writeAt (ds ++ [.field i]) v x := by
  unfold applySet at h
  split at h
  · rename_i i2 heq
    cases heq
    split at h
    · cases h
    · rename_i dc hdc
      split at h
      · rename_i fs hveq
        split at h
        · rename_i f hf
          split at h
          · rename_i hset
            cases h
            exact ⟨dc.1, fs, by rw [← hveq]; exact hdc, ⟨f, hf⟩, hset, rfl⟩
          · cases h
        · cases h
      · cases h
  · rename_i heq
    cases heq
  · rename_i heq
    cases heq

/-- Success inversion for the map write function. -/
theorem applySet_map_ok (n : Node) (st : Bool) (v x v2 : Val) (k : Key)
    (hkey : n.Key = some k) (h : applySet .mapSet n st v x = (none, v2)) :
    ∃ ds es, derefChain v = some (ds, .map es) ∧
      v2 = writeAt ds v (.map (insertEntry es k x)) := by
  unfold applySet at h
  split at h
  · rename_i heq
    cases heq
  · split at h
    · rename_i k2 hk
      rw [hkey] at hk
      cases hk
      split at h
      · cases h
      · rename_i dc hdc
        split at h
        · rename_i es hveq
          cases h
          exact ⟨dc.1, es, by rw [← hveq]; exact hdc, rfl⟩
        · cases h
    · rename_i hnk
      rw [hkey] at hnk
      cases hnk
  · rename_i heq
    cases heq

/-- Success inversion for the sequence write function. -/
theorem applySet_index_ok (n : Node) (st : Bool) (v x v2 : Val) (ix : Int)
    (hkey : n.Key = some (.i ix))
    (h : applySet .indexSet n st v x = (none, v2)) :
    ¬ix < 0 ∧
    ((∃ ds t es,
        derefChain v = some (ds, .slice t es) ∧
        ix.toNat < (if (st || !ds.isEmpty) = true then
            es ++ List.replicate (ix.toNat + 1 - es.length) (zeroVal t)
          else es).length ∧
        v2 = writeAt ds v (.slice t
          ((if (st || !ds.isEmpty) = true then
              es ++ List.replicate (ix.toNat + 1 - es.length) (zeroVal t)
            else es).set ix.toNat x))) ∨
     (∃ ds es, derefChain v = some (ds, .array es) ∧ ix.toNat < es.length ∧
        (st || !ds.isEmpty) = true ∧
        v2 = writeAt (ds ++ [.index ix.toNat]) v x)) := by
  unfold applySet at h
  split at h
  · rename_i heq
    cases heq
  · rename_i heq
    cases heq
  · split at h
    · rename_i ix2 hk
      rw [hkey] at hk
      cases hk
      split at h
      · cases h
      · rename_i hneg
        split at h
        · cases h
        · rename_i dc hdc
          simp only [] at h
          split at h
          · rename_i t es hveq
            split at h
            · rename_i hcs
              split at h
              · rename_i hin
                cases h
                refine ⟨hneg, Or.inl ⟨dc.1, t, es, by rw [← hveq]; exact hdc,
                  ?_, ?_⟩⟩
                · rw [if_pos hcs]
                  exact hin
                · rw [if_pos hcs]
              · cases h
            · rename_i hcs
              split at h
              · rename_i hin
                cases h
                refine ⟨hneg, Or.inl ⟨dc.1, t, es, by rw [← hveq]; exact hdc,
                  ?_, ?_⟩⟩
                · rw [if_neg hcs]
                  exact hin
                · rw [if_neg hcs]
              · cases h
          · rename_i es hveq
            split at h
            · rename_i hin
              split at h
              · rename_i hset
                cases h
                exact ⟨hneg, Or.inr ⟨dc.1, es, by rw [← hveq]; exact hdc,
                  hin, hset, rfl⟩⟩
              · cases h
            · cases h
          · cases h
    · rename_i hnk
      rw [hkey] at hnk
      exact (hnk ix rfl).elim

/-- Reading a struct field through `applyGet` after the deref chain. -/
theorem applyGet_read_strct (n : Node) (w : Val) (ds : List Step)
    (fs : List Val) (i : Nat) (x : Val)
    (hdc : derefChain w = some (ds, .strct fs)) (hf : fs[i]? = some x) :
    applyGet (.fieldGet i) n w = .ok (some x) := by
  unfold applyGet
  rw [hdc]
  simp [hf]

/-- Reading a slice element through `applyGet` after the deref chain. -/
theorem applyGet_read_slice (n : Node) (w : Val) (ds : List Step)
    (t : Ty) (es : List Val) (ix : Int) (x : Val)
    (hk : n.Key = some (.i ix)) (hneg : ¬ix < 0)
    (hdc : derefChain w = some (ds, .slice t es))
    (he : es[ix.toNat]? = some x) :
    applyGet .indexGet n w = .ok (some x) := by
  unfold applyGet
  rw [hdc]
  simp [hk, hneg, he]

/-- Reading an array element through `applyGet` after the deref chain. -/
theorem applyGet_read_array (n : Node) (w : Val) (ds : List Step)
    (es : List Val) (ix : Int) (x : Val)
    (hk : n.Key = some (.i ix)) (hneg : ¬ix < 0)
    (hdc : derefChain w = some (ds, .array es))
    (he : es[ix.toNat]? = some x) :
    applyGet .indexGet n w = .ok (some x) := by
  unfold applyGet
  rw [hdc]
  simp [hk, hneg, he]

/-- Reading a map entry through `applyGet` after the deref chain. -/
theorem applyGet_read_map (n : Node) (w : Val) (ds : List Step)
    (es : List (Key × Val)) (k : Key) (hk : n.Key = some k)
    (hdc : derefChain w = some (ds, .map es)) :
    applyGet .mapGet n w = .ok (findEntry es k) := by
  unfold applyGet
  rw [hdc]
  simp [hk]

/-- A `some` result of a list lookup bounds the index. -/
theorem getElem?_lt {α : Type} {l : List α} {i : Nat} {a : α}
    (h : l[i]? = some a) : i < l.length := by
  by_contra hc
  rw [List.getElem?_eq_none (Nat.le_of_not_lt hc)] at h
  cases h

/-- Reading a struct field back after writing it in place. -/
theorem getAfterWrite_field (n : Node) (v : Val) (ds : List Step)
    (fs : List Val) (i : Nat) (f x : Val)
    (hdc : derefChain v = some (ds, .strct fs)) (hf : fs[i]? = some f) :
    applyGet (.fieldGet i) n (writeAt (ds ++ [.field i]) v x) =
      .ok (some x) := by
  have hlen : i < fs.length := getElem?_lt hf
  have h1 : writeAt (ds ++ [.field i]) v x
      = writeAt ds v (.strct (fs.set i x)) := by
    rw [writeAt_spine v ds (.strct fs) [.field i] x hdc]
    simp [writeAt, hf]
  rw [h1]
  exact applyGet_read_strct n _ ds (fs.set i x) i x
    (derefChain_writeAt v ds (.strct fs) (.strct (fs.set i x)) hdc trivial)
    (List.getElem?_set_self hlen)

/-- Reading a slice element back after writing it in place. -/
theorem getAfterWrite_index_slice (n : Node) (v : Val) (ds : List Step)
    (t : Ty) (es : List Val) (ix : Int) (e x : Val)
    (hk : n.Key = some (.i ix)) (hneg : ¬ix < 0)
    (hdc : derefChain v = some (ds, .slice t es))
    (he : es[ix.toNat]? = some e) :
    applyGet .indexGet n (writeAt (ds ++ [.index ix.toNat]) v x) =
      .ok (some x) := by
  have hlen : ix.toNat < es.length := getElem?_lt he
  have h1 : writeAt (ds ++ [.index ix.toNat]) v x
      = writeAt ds v (.slice t (es.set ix.toNat x)) := by
    rw [writeAt_spine v ds (.slice t es) [.index ix.toNat] x hdc]
    simp [writeAt, he]
  rw [h1]
  exact applyGet_read_slice n _ ds t (es.set ix.toNat x) ix x hk hneg
    (derefChain_writeAt v ds (.slice t es) (.slice t (es.set ix.toNat x))
      hdc trivial)
    (List.getElem?_set_self hlen)

/-- Reading an array element back after writing it in place. -/
theorem getAfterWrite_index_array (n : Node) (v : Val) (ds : List Step)
    (es : List Val) (ix : Int) (e x : Val)
    (hk : n.Key = some (.i ix)) (hneg : ¬ix < 0)
    (hdc : derefChain v = some (ds, .array es))
    (he : es[ix.toNat]? = some e) :
    applyGet .indexGet n (writeAt (ds ++ [.index ix.toNat]) v x) =
      .ok (some x) := by
  have hlen : ix.toNat < es.length := getElem?_lt he
  have h1 : writeAt (ds ++ [.index ix.toNat]) v x
      = writeAt ds v (.array (es.set ix.toNat x)) := by
    rw [writeAt_spine v ds (.array es) [.index ix.toNat] x hdc]
    simp [writeAt, he]
  rw [h1]
  exact applyGet_read_array n _ ds (es.set ix.toNat x) ix x hk hneg
    (derefChain_writeAt v ds (.array es) (.array (es.set ix.toNat x))
      hdc trivial)
    (List.getElem?_set_self hlen)

/-- Reading a field after a successful field write yields the written
value. -/
theorem getAfterSet_field (i : Nat) (n : Node) (st : Bool) (w x w2 : Val)
    (h : applySet (.fieldSet i) n st w x = (none, w2)) :
    applyGet (.fieldGet i) n w2 = .ok (some x) := by
  obtain ⟨ds, fs, hdc, ⟨f, hf⟩, hst, rfl⟩ := applySet_field_ok i n st w x w2 h
  exact getAfterWrite_field n w ds fs i f x hdc hf

/-- Reading an index after a successful index write yields the written
value. -/
theorem getAfterSet_index (n : Node) (st : Bool) (w x w2 : Val) (ix : Int)
    (hk : n.Key = some (.i ix))
    (h : applySet .indexSet n st w x = (none, w2)) :
    applyGet .indexGet n w2 = .ok (some x) := by
  obtain ⟨hneg, hcase⟩ := applySet_index_ok n st w x w2 ix hk h
  rcases hcase with ⟨ds, t, es, hdc, hin, rfl⟩ | ⟨ds, es, hdc, hin, hst, rfl⟩
  · exact applyGet_read_slice n _ ds t _ ix x hk hneg
      (derefChain_writeAt w ds (.slice t es) _ hdc trivial)
      (List.getElem?_set_self hin)
  · exact getAfterWrite_index_array n w ds es ix _ x hk hneg hdc
      (List.getElem?_eq_getElem hin)

/-- Reading a map key after a successful map write yields the written
value. -/
theorem getAfterSet_map (n : Node) (st : Bool) (w x w2 : Val) (k : Key)
    (hk : n.Key = some k)
    (h : applySet .mapSet n st w x = (none, w2)) :
    applyGet .mapGet n w2 = .ok (some x) := by
  obtain ⟨ds, es, hdc, rfl⟩ := applySet_map_ok n st w x w2 k hk h
  rw [applyGet_read_map n _ ds (insertEntry es k x) k hk
    (derefChain_writeAt w ds (.map es) (.map (insertEntry es k x))
      hdc trivial), findEntry_insertEntry]

/-- Round-trip through the recursive body of `Path.Set`: when every node
pairs the container read with the matching container write, the slot is
addressable (or a pointer), and the set succeeds, replaying the reads on
the updated value returns exactly the written value. -/
theorem setGo_get : ∀ (nodes : List Node) (v val v2 : Val) (st mk : Bool),
    (∀ n ∈ nodes, n.matched = true) → goodSlot st v →
    setGo v st mk nodes val = (none, v2) → nodes ≠ [] →
    GetNodes nodes v2 = .ok val
  | [], _, _, _, _, _, _, _, _, hne => absurd rfl hne
  | [n], v, val, v2, st, mk, hm, _, h, _ => by
    have hmn := hm n (by simp)
    unfold setGo at h
    rcases matched_cases n hmn with ⟨i, hg, hs⟩ | ⟨ix, hg, hs, hk⟩ |
      ⟨k, hg, hs, hk, hco⟩
    · rw [hs] at h
      simp only [GetNodes, hg, getAfterSet_field i n st v val v2 h]
    · rw [hs] at h
      simp only [GetNodes, hg, getAfterSet_index n st v val v2 ix hk h]
    · rw [hs] at h
      simp only [GetNodes, hg, getAfterSet_map n st v val v2 k hk h]
  | n :: n2 :: rest, v, val, v2, st, mk, hm, hgs, h, _ => by
    have hmn := hm n (by simp)
    have hmtail : ∀ m ∈ n2 :: rest, m.matched = true :=
      fun m hmem => hm m (List.mem_cons_of_mem n hmem)
    unfold setGo at h
    split at h
    · rename_i g sf hgeq hseq
      split at h
      · cases h
      · rename_i ch hch
        simp only [] at h
        split at h
        · cases h
        · rename_i child2 hiv
          rcases matched_cases n hmn with ⟨i, hg, hs⟩ | ⟨ix, hg, hs, hk⟩ |
            ⟨k, hg, hs, hk, hco⟩
          · -- struct field node
            rw [hg] at hgeq
            cases hgeq
            rw [hs] at hseq
            cases hseq
            obtain ⟨ds, fs, f, hdc, hf, hcheq⟩ :=
              applyGetChild_field_ok i n st v ch hch
            have hst := goodSlot_settable hgs hdc
            rw [hst] at hcheq
            subst hcheq
            simp only [] at h
            split at h
            · cases h
            · rename_i heq1
              have hres : setGo child2 true (mk || (n.CopyOnly || false))
                  (n2 :: rest) val =
                  (none, (setGo child2 true (mk || (n.CopyOnly || false))
                    (n2 :: rest) val).2) := by
                rw [← heq1]
              have hIH := setGo_get (n2 :: rest) child2 val _ true _
                hmtail (Or.inl rfl) hres (by simp)
              split at h
              · have hget := getAfterSet_field i n st _ _ v2 h
                simp only [GetNodes, hg, hget]
                exact hIH
              · cases h
                have hget := getAfterWrite_field n v ds fs i f
                  (setGo child2 true (mk || (n.CopyOnly || false))
                    (n2 :: rest) val).2 hdc hf
                simp only [GetNodes, hg, hget]
                exact hIH
          · -- sequence node
            rw [hg] at hgeq
            cases hgeq
            rw [hs] at hseq
            cases hseq
            obtain ⟨hneg, hcase⟩ := applyGetChild_index_ok n st v ch ix hk hch
            rcases hcase with ⟨ds, t, es, e, hdc, he, hcheq⟩ |
              ⟨ds, es, e, hdc, he, hcheq⟩
            · -- slice element child
              subst hcheq
              simp only [] at h
              split at h
              · cases h
              · rename_i heq1
                have hres : setGo child2 true (mk || (n.CopyOnly || false))
                    (n2 :: rest) val =
                    (none, (setGo child2 true (mk || (n.CopyOnly || false))
                      (n2 :: rest) val).2) := by
                  rw [← heq1]
                have hIH := setGo_get (n2 :: rest) child2 val _ true _
                  hmtail (Or.inl rfl) hres (by simp)
                split at h
                · have hget := getAfterSet_index n st _ _ v2 ix hk h
                  simp only [GetNodes, hg, hget]
                  exact hIH
                · cases h
                  have hget := getAfterWrite_index_slice n v ds t es ix e
                    (setGo child2 true (mk || (n.CopyOnly || false))
                      (n2 :: rest) val).2 hk hneg hdc he
                  simp only [GetNodes, hg, hget]
                  exact hIH
            · -- array element child
              have hst := goodSlot_settable hgs hdc
              rw [hst] at hcheq
              subst hcheq
              simp only [] at h
              split at h
              · cases h
              · rename_i heq1
                have hres : setGo child2 true (mk || (n.CopyOnly || false))
                    (n2 :: rest) val =
                    (none, (setGo child2 true (mk || (n.CopyOnly || false))
                      (n2 :: rest) val).2) := by
                  rw [← heq1]
                have hIH := setGo_get (n2 :: rest) child2 val _ true _
                  hmtail (Or.inl rfl) hres (by simp)
                split at h
                · have hget := getAfterSet_index n st _ _ v2 ix hk h
                  simp only [GetNodes, hg, hget]
                  exact hIH
                · cases h
                  have hget := getAfterWrite_index_array n v ds es ix e
                    (setGo child2 true (mk || (n.CopyOnly || false))
                      (n2 :: rest) val).2 hk hneg hdc he
                  simp only [GetNodes, hg, hget]
                  exact hIH
          · -- map entry node
            rw [hg] at hgeq
            cases hgeq
            rw [hs] at hseq
            cases hseq
            rcases applyGetChild_map_ok n st v ch k hk hch with
              ⟨ds, es, hdc, hcheq⟩ | ⟨ds, hdc, hcheq⟩
            · rcases hfe : findEntry es k with _ | fv
              all_goals rw [hfe] at hcheq
              all_goals subst hcheq
              all_goals rw [hco] at h
              all_goals simp only [Bool.true_or, Bool.or_true, if_true] at h
              all_goals split at h
              · cases h
              · rename_i heq1
                have hres : setGo child2 true true (n2 :: rest) val =
                    (none,
                      (setGo child2 true true (n2 :: rest) val).2) := by
                  rw [← heq1]
                have hIH := setGo_get (n2 :: rest) child2 val _ true _
                  hmtail (Or.inl rfl) hres (by simp)
                have hget := getAfterSet_map n st _ _ v2 k hk h
                simp only [GetNodes, hg, hget]
                exact hIH
              · cases h
              · rename_i heq1
                have hres : setGo child2 true true (n2 :: rest) val =
                    (none,
                      (setGo child2 true true (n2 :: rest) val).2) := by
                  rw [← heq1]
                have hIH := setGo_get (n2 :: rest) child2 val _ true _
                  hmtail (Or.inl rfl) hres (by simp)
                have hget := getAfterSet_map n st _ _ v2 k hk h
                simp only [GetNodes, hg, hget]
                exact hIH
            · subst hcheq
              rw [hco] at h
              simp only [Bool.true_or, Bool.or_true, if_true] at h
              split at h
              · cases h
              · rename_i heq1
                have hres : setGo child2 true true (n2 :: rest) val =
                    (none,
                      (setGo child2 true true (n2 :: rest) val).2) := by
                  rw [← heq1]
                have hIH := setGo_get (n2 :: rest) child2 val _ true _
                  hmtail (Or.inl rfl) hres (by simp)
                have hget := getAfterSet_map n st _ _ v2 k hk h
                simp only [GetNodes, hg, hget]
                exact hIH
    · cases h

/-- Discriminator for the top-level shape (Go kind) of a modelled
value. -/
def ctorIdx : Val → Nat
  | .int _ => 0
  | .str _ => 1
  | .strct _ => 2
  | .map _ => 3
  | .nilMap => 4
  | .slice _ _ => 5
  | .array _ => 6
  | .ptr _ => 7
  | .nilPtr => 8

/-- Replacing the concrete value below the deref spine with a value of
the same shape keeps the shape of the whole. -/
theorem spine_write_ctor : ∀ (v : Val) (ds : List Step) (c x : Val),
    derefChain v = some (ds, c) → ctorIdx x = ctorIdx c →
    ctorIdx (writeAt ds v x) = ctorIdx v
  | .ptr w, ds, c, x, h, hx => by
    simp only [derefChain] at h
    cases hw : derefChain w with
    | none => rw [hw] at h; cases h
    | some p => rw [hw] at h; cases h; rfl
  | .nilPtr, ds, c, x, h, hx => by cases h
  | .int m, ds, c, x, h, hx => by
    obtain ⟨rfl, rfl⟩ := spine_base h rfl
    exact hx
  | .str m, ds, c, x, h, hx => by
    obtain ⟨rfl, rfl⟩ := spine_base h rfl
    exact hx
  | .strct fs, ds, c, x, h, hx => by
    obtain ⟨rfl, rfl⟩ := spine_base h rfl
    exact hx
  | .map es, ds, c, x, h, hx => by
    obtain ⟨rfl, rfl⟩ := spine_base h rfl
    exact hx
  | .nilMap, ds, c, x, h, hx => by
    obtain ⟨rfl, rfl⟩ := spine_base h rfl
    exact hx
  | .slice t es, ds, c, x, h, hx => by
    obtain ⟨rfl, rfl⟩ := spine_base h rfl
    exact hx
  | .array es, ds, c, x, h, hx => by
    obtain ⟨rfl, rfl⟩ := spine_base h rfl
    exact hx

/-- An in-place field write keeps the shape of the container value. -/
theorem writeAt_field_ctor (v : Val) (ds : List Step) (fs : List Val)
    (i : Nat) (f x : Val) (hdc : derefChain v = some (ds, .strct fs))
    (hf : fs[i]? = some f) :
    ctorIdx (writeAt (ds ++ [.field i]) v x) = ctorIdx v := by
  rw [writeAt_spine v ds (.strct fs) [.field i] x hdc,
    show writeAt [Step.field i] (Val.strct fs) x
      = .strct (fs.set i x) from by simp [writeAt, hf]]
  exact spine_write_ctor v ds _ _ hdc rfl

/-- An in-place slice element write keeps the shape of the container
value. -/
theorem writeAt_slice_ctor (v : Val) (ds : List Step) (t : Ty)
    (es : List Val) (j : Nat) (e x : Val)
    (hdc : derefChain v = some (ds, .slice t es))
    (he : es[j]? = some e) :
    ctorIdx (writeAt (ds ++ [.index j]) v x) = ctorIdx v := by
  rw [writeAt_spine v ds (.slice t es) [.index j] x hdc,
    show writeAt [Step.index j] (Val.slice t es) x
      = .slice t (es.set j x) from by simp [writeAt, he]]
  exact spine_write_ctor v ds _ _ hdc rfl

/-- An in-place array element write keeps the shape of the container
value. -/
theorem writeAt_array_ctor (v : Val) (ds : List Step)
    (es : List Val) (j : Nat) (e x : Val)
    (hdc : derefChain v = some (ds, .array es))
    (he : es[j]? = some e) :
    ctorIdx (writeAt (ds ++ [.index j]) v x) = ctorIdx v := by
  rw [writeAt_spine v ds (.array es) [.index j] x hdc,
    show writeAt [Step.index j] (Val.array es) x
      = .array (es.set j x) from by simp [writeAt, he]]
  exact spine_write_ctor v ds _ _ hdc rfl

/-- A successful field write keeps the shape of the container value. -/
theorem applySet_field_ctor (i : Nat) (n : Node) (st : Bool)
    (w x w2 : Val) (h : applySet (.fieldSet i) n st w x = (none, w2)) :
    ctorIdx w2 = ctorIdx w := by
  obtain ⟨ds, fs, hdc, ⟨f, hf⟩, hset, rfl⟩ := applySet_field_ok i n st w x w2 h
  exact writeAt_field_ctor w ds fs i f x hdc hf

/-- A successful sequence write keeps the shape of the container
value. -/
theorem applySet_index_ctor (n : Node) (st : Bool) (w x w2 : Val)
    (ix : Int) (hk : n.Key = some (.i ix))
    (h : applySet .indexSet n st w x = (none, w2)) :
    ctorIdx w2 = ctorIdx w := by
  obtain ⟨hneg, hcase⟩ := applySet_index_ok n st w x w2 ix hk h
  rcases hcase with ⟨ds, t, es, hdc, hin, rfl⟩ | ⟨ds, es, hdc, hin, hset, rfl⟩
  · exact spine_write_ctor w ds _ _ hdc rfl
  · exact writeAt_array_ctor w ds es ix.toNat _ x hdc
      (List.getElem?_eq_getElem hin)

/-- A successful map write keeps the shape of the container value. -/
theorem applySet_map_ctor (n : Node) (st : Bool) (w x w2 : Val) (k : Key)
    (hk : n.Key = some k) (h : applySet .mapSet n st w x = (none, w2)) :
    ctorIdx w2 = ctorIdx w := by
  obtain ⟨ds, es, hdc, rfl⟩ := applySet_map_ok n st w x w2 k hk h
  exact spine_write_ctor w ds _ _ hdc rfl

/-- `InitValue` is stable: once it has accepted a value of a given shape
for a type, it accepts every value of a shape it can produce for that
type unchanged. -/
theorem initValue_stable : ∀ (f : Val) (ty : Ty) (c x : Val),
    initValue f ty = .ok c → ctorIdx x = ctorIdx c →
    initValue x ty = .ok x := by
  intro f ty c x h hx
  cases ty <;> cases f <;> cases h <;> cases x <;>
    simp_all [initValue, ctorIdx]

/-- A successful `Path.Set` body keeps the shape of the root value. -/
theorem setGo_ctor : ∀ (nodes : List Node) (v val v2 : Val) (st mk : Bool),
    (∀ n ∈ nodes, n.matched = true) →
    setGo v st mk nodes val = (none, v2) → ctorIdx v2 = ctorIdx v
  | [], v, val, v2, st, mk, _, h => by
    unfold setGo at h
    cases h
    rfl
  | [n], v, val, v2, st, mk, hm, h => by
    have hmn := hm n (by simp)
    unfold setGo at h
    rcases matched_cases n hmn with ⟨i, hg, hs⟩ | ⟨ix, hg, hs, hk⟩ |
      ⟨k, hg, hs, hk, hco⟩
    · rw [hs] at h
      exact applySet_field_ctor i n st v val v2 h
    · rw [hs] at h
      exact applySet_index_ctor n st v val v2 ix hk h
    · rw [hs] at h
      exact applySet_map_ctor n st v val v2 k hk h
  | n :: n2 :: rest, v, val, v2, st, mk, hm, h => by
    have hmn := hm n (by simp)
    unfold setGo at h
    split at h
    · rename_i g sf hgeq hseq
      split at h
      · cases h
      · rename_i ch hch
        simp only [] at h
        split at h
        · cases h
        · rename_i child2 hiv
          rcases matched_cases n hmn with ⟨i, hg, hs⟩ | ⟨ix, hg, hs, hk⟩ |
            ⟨k, hg, hs, hk, hco⟩
          · -- struct field node
            rw [hg] at hgeq
            cases hgeq
            rw [hs] at hseq
            cases hseq
            obtain ⟨ds, fs, f, hdc, hf, hcheq⟩ :=
              applyGetChild_field_ok i n st v ch hch
            subst hcheq
            simp only [] at h
            split at h
            · rename_i steps c heq
              injection heq with h1 h2 h3
              subst h1
              subst h3
              split at h
              · cases h
              · split at h
                · have h2 := applySet_field_ctor i n st _ _ v2 h
                  rw [h2]
                  exact writeAt_field_ctor v ds fs i f _ hdc hf
                · cases h
                  exact writeAt_field_ctor v ds fs i f _ hdc hf
            · split at h
              · cases h
              · split at h
                · exact applySet_field_ctor i n st v _ v2 h
                · cases h
                  rfl
          · -- sequence node
            rw [hg] at hgeq
            cases hgeq
            rw [hs] at hseq
            cases hseq
            obtain ⟨hneg, hcase⟩ := applyGetChild_index_ok n st v ch ix hk hch
            rcases hcase with ⟨ds, t, es, e, hdc, he, hcheq⟩ |
              ⟨ds, es, e, hdc, he, hcheq⟩
            · -- slice element child
              subst hcheq
              simp only [] at h
              split at h
              · cases h
              · split at h
                · have h2 := applySet_index_ctor n st _ _ v2 ix hk h
                  rw [h2]
                  exact writeAt_slice_ctor v ds t es ix.toNat e _ hdc he
                · cases h
                  exact writeAt_slice_ctor v ds t es ix.toNat e _ hdc he
            · -- array element child
              subst hcheq
              simp only [] at h
              split at h
              · rename_i steps c heq
                injection heq with h1 h2 h3
                subst h1
                subst h3
                split at h
                · cases h
                · split at h
                  · have h2 := applySet_index_ctor n st _ _ v2 ix hk h
                    rw [h2]
                    exact writeAt_array_ctor v ds es ix.toNat e _ hdc he
                  · cases h
                    exact writeAt_array_ctor v ds es ix.toNat e _ hdc he
              · split at h
                · cases h
                · split at h
                  · exact applySet_index_ctor n st v _ v2 ix hk h
                  · cases h
                    rfl
          · -- map entry node
            rw [hg] at hgeq
            cases hgeq
            rw [hs] at hseq
            cases hseq
            rcases applyGetChild_map_ok n st v ch k hk hch with
              ⟨ds, es, hdc, hcheq⟩ | ⟨ds, hdc, hcheq⟩
            · subst hcheq
              rw [hco] at h
              simp only [Bool.true_or, Bool.or_true, if_true] at h
              split at h
              · cases h
              · exact applySet_map_ctor n st v _ v2 k hk h
            · subst hcheq
              rw [hco] at h
              simp only [Bool.true_or, Bool.or_true, if_true] at h
              split at h
              · cases h
              · obtain ⟨ds2, es2, hdc2, hv2⟩ :=
                  applySet_map_ok n st v _ v2 k hk h
                rw [hdc] at hdc2
                cases hdc2
    · cases h

/-- Forward evaluation of a field read in the forward pass. -/
theorem applyGetChild_mk_field (i : Nat) (n : Node) (st : Bool) (w : Val)
    (ds : List Step) (fs : List Val) (x : Val)
    (hdc : derefChain w = some (ds, .strct fs)) (hf : fs[i]? = some x) :
    applyGetChild (.fieldGet i) n st w =
      .ok (.aliased (ds ++ [.field i]) (st || !ds.isEmpty) x) := by
  unfold applyGetChild
  rw [hdc]
  simp [hf]

/-- Forward evaluation of a slice read in the forward pass. -/
theorem applyGetChild_mk_slice (n : Node) (st : Bool) (w : Val)
    (ds : List Step) (t : Ty) (es : List Val) (ix : Int) (x : Val)
    (hk : n.Key = some (.i ix)) (hneg : ¬ix < 0)
    (hdc : derefChain w = some (ds, .slice t es))
    (he : es[ix.toNat]? = some x) :
    applyGetChild .indexGet n st w =
      .ok (.aliased (ds ++ [.index ix.toNat]) true x) := by
  unfold applyGetChild
  rw [hdc]
  simp [hk, hneg, he]

/-- Forward evaluation of an array read in the forward pass. -/
theorem applyGetChild_mk_array (n : Node) (st : Bool) (w : Val)
    (ds : List Step) (es : List Val) (ix : Int) (x : Val)
    (hk : n.Key = some (.i ix)) (hneg : ¬ix < 0)
    (hdc : derefChain w = some (ds, .array es))
    (he : es[ix.toNat]? = some x) :
    applyGetChild .indexGet n st w =
      .ok (.aliased (ds ++ [.index ix.toNat]) (st || !ds.isEmpty) x) := by
  unfold applyGetChild
  rw [hdc]
  simp [hk, hneg, he]

/-- Forward evaluation of a map read in the forward pass. -/
theorem applyGetChild_mk_map (n : Node) (st : Bool) (w : Val)
    (ds : List Step) (es : List (Key × Val)) (k : Key)
    (hk : n.Key = some k)
    (hdc : derefChain w = some (ds, .map es)) :
    applyGetChild .mapGet n st w = .ok (.copy (findEntry es k)) := by
  unfold applyGetChild
  rw [hdc]
  simp [hk]

/-- Forward evaluation of a field write. -/
theorem applySet_mk_field (i : Nat) (n : Node) (st : Bool) (w x f : Val)
    (ds : List Step) (fs : List Val)
    (hdc : derefChain w = some (ds, .strct fs)) (hf : fs[i]? = some f)
    (hset : (st || !ds.isEmpty) = true) :
    applySet (.fieldSet i) n st w x =
      (none, writeAt (ds ++ [.field i]) w x) := by
  unfold applySet
  rw [hdc]
  simp [hf, hset]

/-- Forward evaluation of an in-range slice write. -/
theorem applySet_mk_slice (n : Node) (st : Bool) (w x : Val)
    (ds : List Step) (t : Ty) (es : List Val) (ix : Int) (e : Val)
    (hk : n.Key = some (.i ix)) (hneg : ¬ix < 0)
    (hdc : derefChain w = some (ds, .slice t es))
    (he : es[ix.toNat]? = some e) :
    applySet .indexSet n st w x =
      (none, writeAt ds w (.slice t (es.set ix.toNat x))) := by
  have hlen : ix.toNat < es.length := getElem?_lt he
  unfold applySet
  rw [hdc]
  simp [hk, hneg, hlen, Nat.sub_eq_zero_of_le hlen]

/-- Forward evaluation of an in-range array write. -/
theorem applySet_mk_array (n : Node) (st : Bool) (w x : Val)
    (ds : List Step) (es : List Val) (ix : Int) (e : Val)
    (hk : n.Key = some (.i ix)) (hneg : ¬ix < 0)
    (hdc : derefChain w = some (ds, .array es))
    (he : es[ix.toNat]? = some e)
    (hset : (st || !ds.isEmpty) = true) :
    applySet .indexSet n st w x =
      (none, writeAt (ds ++ [.index ix.toNat]) w x) := by
  have hlen : ix.toNat < es.length := getElem?_lt he
  unfold applySet
  rw [hdc]
  simp [hk, hneg, hlen, hset]

/-- Forward evaluation of a map write. -/
theorem applySet_mk_map (n : Node) (st : Bool) (w x : Val) (ds : List Step)
    (es : List (Key × Val)) (k : Key) (hk : n.Key = some k)
    (hdc : derefChain w = some (ds, .map es)) :
    applySet .mapSet n st w x =
      (none, writeAt ds w (.map (insertEntry es k x))) := by
  unfold applySet
  rw [hdc]
  simp [hk]

/-- Writing the field value already stored is the identity. -/
theorem writeAt_field_self (v : Val) (ds : List Step) (fs : List Val)
    (i : Nat) (x : Val) (hdc : derefChain v = some (ds, .strct fs))
    (hf : fs[i]? = some x) :
    writeAt (ds ++ [.field i]) v x = v := by
  rw [writeAt_spine v ds (.strct fs) [.field i] x hdc,
    show writeAt [Step.field i] (Val.strct fs) x
      = .strct (fs.set i x) from by simp [writeAt, hf],
    list_set_self fs i x hf]
  exact writeAt_spine_self v ds (.strct fs) hdc

/-- Writing the slice element already stored is the identity. -/
theorem writeAt_slice_self (v : Val) (ds : List Step) (t : Ty)
    (es : List Val) (j : Nat) (x : Val)
    (hdc : derefChain v = some (ds, .slice t es)) (he : es[j]? = some x) :
    writeAt (ds ++ [.index j]) v x = v := by
  rw [writeAt_spine v ds (.slice t es) [.index j] x hdc,
    show writeAt [Step.index j] (Val.slice t es) x
      = .slice t (es.set j x) from by simp [writeAt, he],
    list_set_self es j x he]
  exact writeAt_spine_self v ds (.slice t es) hdc

/-- Writing the array element already stored is the identity. -/
theorem writeAt_array_self (v : Val) (ds : List Step)
    (es : List Val) (j : Nat) (x : Val)
    (hdc : derefChain v = some (ds, .array es)) (he : es[j]? = some x) :
    writeAt (ds ++ [.index j]) v x = v := by
  rw [writeAt_spine v ds (.array es) [.index j] x hdc,
    show writeAt [Step.index j] (Val.array es) x
      = .array (es.set j x) from by simp [writeAt, he],
    list_set_self es j x he]
  exact writeAt_spine_self v ds (.array es) hdc

/-- Repeating a successful `Path.Set` body with the same value is a
no-op: it succeeds again and leaves the value unchanged. -/
theorem setGo_idem : ∀ (nodes : List Node) (v val v2 : Val) (st mk : Bool),
    (∀ n ∈ nodes, n.matched = true) → goodSlot st v →
    setGo v st mk nodes val = (none, v2) →
    setGo v2 st mk nodes val = (none, v2)
  | [], v, val, v2, st, mk, _, _, h => by
    unfold setGo at h
    cases h
    rfl
  | [n], v, val, v2, st, mk, hm, _, h => by
    have hmn := hm n (by simp)
    unfold setGo at h
    rcases matched_cases n hmn with ⟨i, hg, hs⟩ | ⟨ix, hg, hs, hk⟩ |
      ⟨k, hg, hs, hk, hco⟩
    · rw [hs] at h
      obtain ⟨ds, fs, hdc, ⟨f, hf⟩, hset, hv2⟩ :=
        applySet_field_ok i n st v val v2 h
      subst hv2
      have hlen := getElem?_lt hf
      have hW : writeAt (ds ++ [Step.field i]) v val
          = writeAt ds v (.strct (fs.set i val)) := by
        rw [writeAt_spine v ds (.strct fs) [Step.field i] val hdc,
          show writeAt [Step.field i] (Val.strct fs) val
            = .strct (fs.set i val) from by simp [writeAt, hf]]
      have hdcW : derefChain (writeAt (ds ++ [Step.field i]) v val)
          = some (ds, .strct (fs.set i val)) := by
        rw [hW]
        exact derefChain_writeAt v ds _ _ hdc trivial
      have hfW : (fs.set i val)[i]? = some val := List.getElem?_set_self hlen
      unfold setGo
      rw [hs]
      simp only []
      rw [applySet_mk_field i n st _ val val ds (fs.set i val) hdcW hfW hset,
        writeAt_field_self _ ds (fs.set i val) i val hdcW hfW]
    · rw [hs] at h
      obtain ⟨hneg, hcase⟩ := applySet_index_ok n st v val v2 ix hk h
      rcases hcase with ⟨ds, t, es, hdc, hin, hv2⟩ |
        ⟨ds, es, hdc, hin, hset, hv2⟩
      · -- slice leaf
        subst hv2
        set E := (if (st || !ds.isEmpty) = true then
            es ++ List.replicate (ix.toNat + 1 - es.length) (zeroVal t)
          else es)
        have hdcW : derefChain (writeAt ds v (.slice t (E.set ix.toNat val)))
            = some (ds, .slice t (E.set ix.toNat val)) :=
          derefChain_writeAt v ds _ _ hdc trivial
        have heW : (E.set ix.toNat val)[ix.toNat]? = some val :=
          List.getElem?_set_self hin
        unfold setGo
        rw [hs]
        simp only []
        rw [applySet_mk_slice n st _ val ds t (E.set ix.toNat val) ix val
          hk hneg hdcW heW, List.set_set,
          writeAt_spine_self _ ds _ hdcW]
      · -- array leaf
        subst hv2
        have heIn := List.getElem?_eq_getElem hin
        have hW : writeAt (ds ++ [Step.index ix.toNat]) v val
            = writeAt ds v (.array (es.set ix.toNat val)) := by
          rw [writeAt_spine v ds (.array es) [Step.index ix.toNat] val hdc,
            show writeAt [Step.index ix.toNat] (Val.array es) val
              = .array (es.set ix.toNat val) from by simp [writeAt, heIn]]
        have hdcW : derefChain (writeAt (ds ++ [Step.index ix.toNat]) v val)
            = some (ds, .array (es.set ix.toNat val)) := by
          rw [hW]
          exact derefChain_writeAt v ds _ _ hdc trivial
        have heW : (es.set ix.toNat val)[ix.toNat]? = some val :=
          List.getElem?_set_self hin
        unfold setGo
        rw [hs]
        simp only []
        rw [applySet_mk_array n st _ val ds (es.set ix.toNat val) ix val
          hk hneg hdcW heW hset,
          writeAt_array_self _ ds (es.set ix.toNat val) ix.toNat val hdcW heW]
    · rw [hs] at h
      obtain ⟨ds, es, hdc, hv2⟩ := applySet_map_ok n st v val v2 k hk h
      subst hv2
      have hdcW : derefChain (writeAt ds v (.map (insertEntry es k val)))
          = some (ds, .map (insertEntry es k val)) :=
        derefChain_writeAt v ds _ _ hdc trivial
      unfold setGo
      rw [hs]
      simp only []
      rw [applySet_mk_map n st _ val ds (insertEntry es k val) k hk hdcW,
        insertEntry_self _ _ _ (findEntry_insertEntry es k val),
        writeAt_spine_self _ ds _ hdcW]
  | n :: n2 :: rest, v, val, v2, st, mk, hm, hgs, h => by
    have hmn := hm n (by simp)
    have hmtail : ∀ m ∈ n2 :: rest, m.matched = true :=
      fun m hmem => hm m (List.mem_cons_of_mem n hmem)
    unfold setGo at h
    split at h
    · rename_i g sf hgeq hseq
      split at h
      · cases h
      · rename_i ch hch
        simp only [] at h
        split at h
        · cases h
        · rename_i child2 hiv
          rcases matched_cases n hmn with ⟨i, hg, hs⟩ | ⟨ix, hg, hs, hk⟩ |
            ⟨k, hg, hs, hk, hco⟩
          · -- struct field node
            rw [hg] at hgeq
            cases hgeq
            rw [hs] at hseq
            cases hseq
            obtain ⟨ds, fs, f, hdc, hf, hcheq⟩ :=
              applyGetChild_field_ok i n st v ch hch
            have hst := goodSlot_settable hgs hdc
            rw [hst] at hcheq
            subst hcheq
            simp only [] at h
            split at h
            · cases h
            · rename_i heq1
              set R := (setGo child2 true (mk || (n.CopyOnly || false))
                (n2 :: rest) val).2
              have hres : setGo child2 true (mk || (n.CopyOnly || false))
                  (n2 :: rest) val = (none, R) := by
                rw [← heq1]
              have hctor := setGo_ctor (n2 :: rest) child2 val R true _
                hmtail hres
              have hiv2 := initValue_stable _ _ _ R hiv hctor
              have hrec2 := setGo_idem (n2 :: rest) child2 val R true _
                hmtail (Or.inl rfl) hres
              have hlen := getElem?_lt hf
              have hW : writeAt (ds ++ [Step.field i]) v R
                  = writeAt ds v (.strct (fs.set i R)) := by
                rw [writeAt_spine v ds (.strct fs) [Step.field i] R hdc,
                  show writeAt [Step.field i] (Val.strct fs) R
                    = .strct (fs.set i R) from by simp [writeAt, hf]]
              have hdcW : derefChain (writeAt (ds ++ [Step.field i]) v R)
                  = some (ds, .strct (fs.set i R)) := by
                rw [hW]
                exact derefChain_writeAt v ds _ _ hdc trivial
              have hfW : (fs.set i R)[i]? = some R :=
                List.getElem?_set_self hlen
              have hWself : writeAt (ds ++ [Step.field i])
                  (writeAt (ds ++ [Step.field i]) v R) R
                  = writeAt (ds ++ [Step.field i]) v R :=
                writeAt_field_self _ ds (fs.set i R) i R hdcW hfW
              have hch2 := applyGetChild_mk_field i n st
                (writeAt (ds ++ [Step.field i]) v R) ds (fs.set i R) R
                hdcW hfW
              rw [hst] at hch2
              split at h
              · rename_i hM1
                rw [applySet_mk_field i n st _ R R ds (fs.set i R)
                  hdcW hfW hst, hWself] at h
                cases h
                unfold setGo
                rw [hg, hs]
                simp only []
                rw [hch2]
                simp only []
                rw [hiv2]
                simp only []
                rw [hrec2]
                simp only []
                rw [if_pos hM1, hWself,
                  applySet_mk_field i n st _ R R ds (fs.set i R)
                    hdcW hfW hst, hWself]
              · rename_i hM1
                cases h
                unfold setGo
                rw [hg, hs]
                simp only []
                rw [hch2]
                simp only []
                rw [hiv2]
                simp only []
                rw [hrec2]
                simp only []
                rw [if_neg hM1, hWself]
          · -- sequence node
            rw [hg] at hgeq
            cases hgeq
            rw [hs] at hseq
            cases hseq
            obtain ⟨hneg, hcase⟩ := applyGetChild_index_ok n st v ch ix hk hch
            rcases hcase with ⟨ds, t, es, e, hdc, he, hcheq⟩ |
              ⟨ds, es, e, hdc, he, hcheq⟩
            · -- slice element child
              subst hcheq
              simp only [] at h
              split at h
              · cases h
              · rename_i heq1
                set R := (setGo child2 true (mk || (n.CopyOnly || false))
                  (n2 :: rest) val).2
                have hres : setGo child2 true (mk || (n.CopyOnly || false))
                    (n2 :: rest) val = (none, R) := by
                  rw [← heq1]
                have hctor := setGo_ctor (n2 :: rest) child2 val R true _
                  hmtail hres
                have hiv2 := initValue_stable _ _ _ R hiv hctor
                have hrec2 := setGo_idem (n2 :: rest) child2 val R true _
                  hmtail (Or.inl rfl) hres
                have hlen := getElem?_lt he
                have hW : writeAt (ds ++ [Step.index ix.toNat]) v R
                    = writeAt ds v (.slice t (es.set ix.toNat R)) := by
                  rw [writeAt_spine v ds (.slice t es) [Step.index ix.toNat]
                    R hdc,
                    show writeAt [Step.index ix.toNat] (Val.slice t es) R
                      = .slice t (es.set ix.toNat R) from by
                        simp [writeAt, he]]
                have hdcW : derefChain
                    (writeAt (ds ++ [Step.index ix.toNat]) v R)
                    = some (ds, .slice t (es.set ix.toNat R)) := by
                  rw [hW]
                  exact derefChain_writeAt v ds _ _ hdc trivial
                have heW : (es.set ix.toNat R)[ix.toNat]? = some R :=
                  List.getElem?_set_self hlen
                have hWself : writeAt (ds ++ [Step.index ix.toNat])
                    (writeAt (ds ++ [Step.index ix.toNat]) v R) R
                    = writeAt (ds ++ [Step.index ix.toNat]) v R :=
                  writeAt_slice_self _ ds t (es.set ix.toNat R) ix.toNat R
                    hdcW heW
                have hch2 := applyGetChild_mk_slice n st
                  (writeAt (ds ++ [Step.index ix.toNat]) v R) ds t
                  (es.set ix.toNat R) ix R hk hneg hdcW heW
                split at h
                · rename_i hM1
                  rw [applySet_mk_slice n st _ R ds t (es.set ix.toNat R)
                    ix R hk hneg hdcW heW, List.set_set,
                    writeAt_spine_self _ ds _ hdcW] at h
                  cases h
                  unfold setGo
                  rw [hg, hs]
                  simp only []
                  rw [hch2]
                  simp only []
                  rw [hiv2]
                  simp only []
                  rw [hrec2]
                  simp only []
                  rw [if_pos hM1, hWself,
                    applySet_mk_slice n st _ R ds t (es.set ix.toNat R)
                      ix R hk hneg hdcW heW, List.set_set,
                    writeAt_spine_self _ ds _ hdcW]
                · rename_i hM1
                  cases h
                  unfold setGo
                  rw [hg, hs]
                  simp only []
                  rw [hch2]
                  simp only []
                  rw [hiv2]
                  simp only []
                  rw [hrec2]
                  simp only []
                  rw [if_neg hM1, hWself]
            · -- array element child
              have hst := goodSlot_settable hgs hdc
              rw [hst] at hcheq
              subst hcheq
              simp only [] at h
              split at h
              · cases h
              · rename_i heq1
                set R := (setGo child2 true (mk || (n.CopyOnly || false))
                  (n2 :: rest) val).2
                have hres : setGo child2 true (mk || (n.CopyOnly || false))
                    (n2 :: rest) val = (none, R) := by
                  rw [← heq1]
                have hctor := setGo_ctor (n2 :: rest) child2 val R true _
                  hmtail hres
                have hiv2 := initValue_stable _ _ _ R hiv hctor
                have hrec2 := setGo_idem (n2 :: rest) child2 val R true _
                  hmtail (Or.inl rfl) hres
                have hlen := getElem?_lt he
                have hW : writeAt (ds ++ [Step.index ix.toNat]) v R
                    = writeAt ds v (.array (es.set ix.toNat R)) := by
                  rw [writeAt_spine v ds (.array es) [Step.index ix.toNat]
                    R hdc,
                    show writeAt [Step.index ix.toNat] (Val.array es) R
                      = .array (es.set ix.toNat R) from by
                        simp [writeAt, he]]
                have hdcW : derefChain
                    (writeAt (ds ++ [Step.index ix.toNat]) v R)
                    = some (ds, .array (es.set ix.toNat R)) := by
                  rw [hW]
                  exact derefChain_writeAt v ds _ _ hdc trivial
                have heW : (es.set ix.toNat R)[ix.toNat]? = some R :=
                  List.getElem?_set_self hlen
                have hWself : writeAt (ds ++ [Step.index ix.toNat])
                    (writeAt (ds ++ [Step.index ix.toNat]) v R) R
                    = writeAt (ds ++ [Step.index ix.toNat]) v R :=
                  writeAt_array_self _ ds (es.set ix.toNat R) ix.toNat R
                    hdcW heW
                have hch2 := applyGetChild_mk_array n st
                  (writeAt (ds ++ [Step.index ix.toNat]) v R) ds
                  (es.set ix.toNat R) ix R hk hneg hdcW heW
                rw [hst] at hch2
                split at h
                · rename_i hM1
                  rw [applySet_mk_array n st _ R ds (es.set ix.toNat R)
                    ix R hk hneg hdcW heW hst, hWself] at h
                  cases h
                  unfold setGo
                  rw [hg, hs]
                  simp only []
                  rw [hch2]
                  simp only []
                  rw [hiv2]
                  simp only []
                  rw [hrec2]
                  simp only []
                  rw [if_pos hM1, hWself,
                    applySet_mk_array n st _ R ds (es.set ix.toNat R)
                      ix R hk hneg hdcW heW hst, hWself]
                · rename_i hM1
                  cases h
                  unfold setGo
                  rw [hg, hs]
                  simp only []
                  rw [hch2]
                  simp only []
                  rw [hiv2]
                  simp only []
                  rw [hrec2]
                  simp only []
                  rw [if_neg hM1, hWself]
          · -- map entry node
            rw [hg] at hgeq
            cases hgeq
            rw [hs] at hseq
            cases hseq
            rcases applyGetChild_map_ok n st v ch k hk hch with
              ⟨ds, es, hdc, hcheq⟩ | ⟨ds, hdc, hcheq⟩
            · subst hcheq
              rw [hco] at h
              simp only [Bool.true_or, Bool.or_true, if_true] at h
              split at h
              · cases h
              · rename_i heq1
                set R := (setGo child2 true true (n2 :: rest) val).2
                have hres : setGo child2 true true (n2 :: rest) val
                    = (none, R) := by
                  rw [← heq1]
                have hctor := setGo_ctor (n2 :: rest) child2 val R true _
                  hmtail hres
                have hiv2 := initValue_stable _ _ _ R hiv hctor
                have hrec2 := setGo_idem (n2 :: rest) child2 val R true _
                  hmtail (Or.inl rfl) hres
                rw [applySet_mk_map n st v R ds es k hk hdc] at h
                cases h
                have hdcW : derefChain
                    (writeAt ds v (.map (insertEntry es k R)))
                    = some (ds, .map (insertEntry es k R)) :=
                  derefChain_writeAt v ds _ _ hdc trivial
                have hch2 := applyGetChild_mk_map n st
                  (writeAt ds v (.map (insertEntry es k R))) ds
                  (insertEntry es k R) k hk hdcW
                rw [findEntry_insertEntry] at hch2
                unfold setGo
                rw [hg, hs]
                simp only []
                rw [hch2]
                simp only []
                rw [hco]
                simp only [Bool.true_or, Bool.or_true, if_true]
                rw [hiv2]
                simp only []
                rw [hrec2]
                simp only []
                rw [applySet_mk_map n st _ R ds (insertEntry es k R) k hk
                  hdcW,
                  insertEntry_self _ _ _ (findEntry_insertEntry es k R),
                  writeAt_spine_self _ ds _ hdcW]
            · subst hcheq
              rw [hco] at h
              simp only [Bool.true_or, Bool.or_true, if_true] at h
              split at h
              · cases h
              · obtain ⟨ds2, es2, hdc2, hv2⟩ :=
                  applySet_map_ok n st v _ v2 k hk h
                rw [hdc] at hdc2
                cases hdc2
    · cases h

/-- Counterexample nodes for C1: two plain struct-field hops. -/
def c1m1 : Node :=
  { KeyString := "In", Key := some (.s "In"), ty := .strct [("S", .str)],
    Get := some (.fieldGet 0), Set := some (.fieldSet 0) }

/-- Second counterexample node for C1: the inner string field. -/
def c1m2 : Node :=
  { KeyString := "S", Key := some (.s "S"), ty := .str,
    Get := some (.fieldGet 0), Set := some (.fieldSet 0) }

/-- Counterexample path for C1. -/
def c1cexPath : Path :=
  ⟨.strct [("In", .strct [("S", .str)])], [c1m1, c1m2]⟩

/-- Counterexample root for C1: a plain (non-addressable, non-pointer)
struct value. -/
def c1cexRoot : Val := .strct [.strct [.str ""]]

/-- C1, counterexample to the claim as stated: on a non-addressable
non-pointer root (a struct handed to `NewRef` by value) and a two-level
field path, `Path.Set` returns a nil error yet mutates nothing — the
write-back pass never runs because the `reflect.New` wrap of the
non-addressable level does not update `setBackTo` — so the subsequent
`Get` returns the old value, not the value just set. -/
theorem c1_counterexample :
    Path.Set c1cexPath false c1cexRoot (.str "x") = (none, c1cexRoot) ∧
    Path.Get c1cexPath c1cexRoot = .ok (.str "") ∧
    Val.str "" ≠ Val.str "x" := by
  refine ⟨rfl, rfl, ?_⟩
  simp

/-- C1 (amended): for a path of container nodes (each pairing the read
accessor with the matching write accessor, as produced by node
inspection) over a root that is addressable or handed in as a pointer,
a successful `Path.Set` is observable: the subsequent `Path.Get` on the
same path returns exactly the value set — including through vivified
intermediate levels — and repeating the same `Set` with the same value
succeeds again and leaves the root state unchanged. -/
theorem c1_set_get_roundtrip (p : Path) (rootCanSet : Bool)
    (root val root2 : Val)
    (hm : ∀ n ∈ p.nodes, n.matched = true)
    (hgs : goodSlot rootCanSet root)
    (h : p.Set rootCanSet root val = (none, root2)) :
    p.Get root2 = .ok val ∧
    p.Set rootCanSet root2 val = (none, root2) := by
  unfold Path.Set at h ⊢
  unfold Path.Get
  split at h
  · rename_i heq
    split at h
    · rename_i hcs
      cases h
      rw [heq]
      exact ⟨rfl, by simp [hcs]⟩
    · cases h
  · rename_i hne
    split at h
    · cases h
    · exact ⟨setGo_get p.nodes root val root2 rootCanSet false hm hgs h hne,
        setGo_idem p.nodes root val root2 rootCanSet false hm hgs h⟩

/-- First witness node for C1: a struct field holding a map. -/
def c1n1 : Node :=
  { KeyString := "M", Key := some (.s "M"), ty := .map .str .str,
    Get := some (.fieldGet 0), Set := some (.fieldSet 0) }

/-- Second witness node for C1: a map entry. -/
def c1n2 : Node :=
  { KeyString := "k", Key := some (.s "k"), ty := .str, CopyOnly := true,
    Get := some .mapGet, Set := some .mapSet }

/-- Witness path for C1: `root.M["k"]`. -/
def c1path : Path :=
  ⟨.strct [("M", .map .str .str)], [c1n1, c1n2]⟩

/-- Witness root for C1: a pointer to a struct whose map field is still
nil, so the set must vivify the intermediate map. -/
def c1root : Val := .ptr (.strct [.nilMap])

/-- Witness for C1 at a concrete input: setting `root.M["k"] = "x"`
through a nil map on a pointer root succeeds, the subsequent get reads
back `"x"`, and repeating the set is a no-op. -/
theorem c1_witness :
    c1path.Get (.ptr (.strct [.map [(.s "k", .str "x")]])) =
      .ok (.str "x") ∧
    c1path.Set false (.ptr (.strct [.map [(.s "k", .str "x")]]))
      (.str "x") = (none, .ptr (.strct [.map [(.s "k", .str "x")]])) :=
  c1_set_get_roundtrip c1path false c1root (.str "x")
    (.ptr (.strct [.map [(.s "k", .str "x")]]))
    (by decide) (Or.inr ⟨_, rfl⟩) rfl

end Refstr
